import Mathlib

/-!
Verification of the retrieval core of the github-repo-explorer backend:
shallow embeddings of the chunker (`core/retriever.py`), the repository
scanner and structural extractor (`ingestion/ingest.py`), the graph
loader (`core/graph_loader.py`), the dynamic graph query tool
(`core/graph_query_tool.py`), and the file explorer
(`core/file_explorer.py`), together with the properties claimed of them.

Python strings are modelled as `List Char` (`PyStr`), Python ints as
`Nat`/`Int` (Python integers are unbounded, so no wrap-around is
modelled), and fallible calls into external services (OpenAI, Neo4j,
the filesystem) as explicit function parameters returning `Except` or
`Option`.
-/

namespace RepoExplorer

/-- A Python `str`, modelled as its character sequence. -/
abbrev PyStr := List Char

/-! ## Chunker — `VectorRetriever.chunk_code` (core/retriever.py)

`chunk_code` does `content.split("\n")`, then accumulates lines into
`current_chunk`, adding `len(line) + 1` to `current_size` per line; when
`current_size >= chunk_size` it appends `"\n".join(current_chunk)` to
`chunks`, then walks the closed chunk backwards collecting overlap lines
until their accumulated `len + 1` sizes reach `overlap`, and restarts
from those lines.  A trailing non-empty `current_chunk` is appended last.
-/

/-- Python `content.split("\n")`: always non-empty, `""` yields `[""]`. -/
def splitNl : PyStr → List PyStr
  | [] => [[]]
  | c :: rest =>
    if c = '\n' then [] :: splitNl rest
    else
      match splitNl rest with
      | [] => [[c]]
      | l :: ls => (c :: l) :: ls

/-- Python `"\n".join(lines)`. -/
def joinNl : List PyStr → PyStr
  | [] => []
  | [l] => l
  | l :: l' :: ls => l ++ '\n' :: joinNl (l' :: ls)

/-- The `current_size` bookkeeping of `chunk_code`: each line counts
`len(line) + 1` characters. -/
def listSize (ls : List PyStr) : Nat :=
  ls.foldr (fun l acc => l.length + 1 + acc) 0

/-- The overlap loop of `chunk_code`, acting on the reversed closed
chunk: accumulate `len(l) + 1` per line and stop with (and including)
the line that makes the accumulated size reach `overlap`. -/
def takeOverlapRev (ov : Nat) : Nat → List PyStr → List PyStr
  | _, [] => []
  | sz, l :: rest =>
    if ov ≤ sz + (l.length + 1) then [l]
    else l :: takeOverlapRev ov (sz + (l.length + 1)) rest

/-- The overlap lines seeded into the next chunk: the source iterates
`reversed(current_chunk)` inserting at index 0, so the result is the
reverse of the processing-order list. -/
def overlapOf (c : List PyStr) (ov : Nat) : List PyStr :=
  (takeOverlapRev ov 0 c.reverse).reverse

/-- The main accumulation loop of `chunk_code` over the remaining lines,
carrying `current_chunk` and `current_size`.  After a close, the source
sets `current_size = overlap_size`, and `overlap_size` is exactly the
sum of `len + 1` over the overlap lines, i.e. `listSize` of them. -/
def chunkLoop (cs ov : Nat) : List PyStr → List PyStr → Nat → List (List PyStr)
  | [], cur, _ => if cur = [] then [] else [cur]
  | l :: rest, cur, size =>
    let cur' := cur ++ [l]
    let size' := size + (l.length + 1)
    if cs ≤ size' then
      let olap := overlapOf cur' ov
      cur' :: chunkLoop cs ov rest olap (listSize olap)
    else
      chunkLoop cs ov rest cur' size'

/-- The chunks of `chunk_code` as line lists (before joining). -/
def chunkLinesOf (content : PyStr) (cs ov : Nat) : List (List PyStr) :=
  chunkLoop cs ov (splitNl content) [] 0

/-- `VectorRetriever.chunk_code(content, chunk_size, overlap)`. -/
def chunk_code (content : PyStr) (cs ov : Nat) : List PyStr :=
  (chunkLinesOf content cs ov).map joinNl

/-! ### Basic lemmas about the chunking pieces -/

theorem splitNl_ne_nil (s : PyStr) : splitNl s ≠ [] := by
  cases s with
  | nil => simp [splitNl]
  | cons c rest =>
    simp only [splitNl]
    split
    · simp
    · split <;> simp

@[simp] theorem listSize_nil : listSize [] = 0 := rfl

@[simp] theorem listSize_cons (l : PyStr) (ls : List PyStr) :
    listSize (l :: ls) = l.length + 1 + listSize ls := rfl

theorem listSize_append (a b : List PyStr) :
    listSize (a ++ b) = listSize a + listSize b := by
  induction a with
  | nil => simp
  | cons l ls ih => simp [ih]; omega

theorem listSize_splitNl (s : PyStr) : listSize (splitNl s) = s.length + 1 := by
  induction s with
  | nil => simp [splitNl]
  | cons c rest ih =>
    simp only [splitNl]
    split
    · simp [ih]; omega
    · rcases h : splitNl rest with _ | ⟨l, ls⟩
      · exact absurd h (splitNl_ne_nil rest)
      · rw [h] at ih
        simp at ih ⊢
        omega

theorem joinNl_length (ls : List PyStr) (h : ls ≠ []) :
    (joinNl ls).length + 1 = listSize ls := by
  induction ls with
  | nil => exact absurd rfl h
  | cons l rest ih =>
    cases rest with
    | nil => simp [joinNl]
    | cons l' ls' =>
      have := ih (by simp)
      simp [joinNl] at this ⊢
      omega

theorem takeOverlapRev_pref (ov : Nat) (sz : Nat) (xs : List PyStr) :
    ∃ t, takeOverlapRev ov sz xs ++ t = xs := by
  induction xs generalizing sz with
  | nil => exact ⟨[], rfl⟩
  | cons l rest ih =>
    simp only [takeOverlapRev]
    split
    · exact ⟨rest, rfl⟩
    · obtain ⟨t, ht⟩ := ih (sz + (l.length + 1))
      exact ⟨t, by simp [ht]⟩

theorem overlapOf_suffix (c : List PyStr) (ov : Nat) : overlapOf c ov <:+ c := by
  obtain ⟨t, ht⟩ := takeOverlapRev_pref ov 0 c.reverse
  refine ⟨t.reverse, ?_⟩
  have : (takeOverlapRev ov 0 c.reverse ++ t).reverse = c.reverse.reverse := by rw [ht]
  simpa [List.reverse_append, overlapOf] using this

theorem overlapOf_ne_nil (c : List PyStr) (ov : Nat) (h : c ≠ []) :
    overlapOf c ov ≠ [] := by
  rcases hr : c.reverse with _ | ⟨l, rest⟩
  · exact absurd (by simpa using congrArg List.reverse hr) h
  · simp only [overlapOf, hr, takeOverlapRev]
    split <;> simp

theorem chunkLoop_ne_nil (cs ov : Nat) :
    ∀ (rest cur : List PyStr) (size : Nat), rest ≠ [] ∨ cur ≠ [] →
      chunkLoop cs ov rest cur size ≠ [] := by
  intro rest
  induction rest with
  | nil =>
    intro cur size h
    rcases h with h | h
    · exact absurd rfl h
    · simp [chunkLoop, h]
  | cons l r ih =>
    intro cur size _
    simp only [chunkLoop]
    split
    · simp
    · exact ih (cur ++ [l]) (size + (l.length + 1)) (Or.inr (by simp))

theorem chunkLoop_head_pref (cs ov : Nat) :
    ∀ (rest cur : List PyStr) (size : Nat) (c : List PyStr),
      (chunkLoop cs ov rest cur size).head? = some c → cur <+: c := by
  intro rest
  induction rest with
  | nil =>
    intro cur size c h
    simp only [chunkLoop] at h
    split at h
    · simp at h
    · simp at h
      exact h ▸ List.prefix_refl cur
  | cons l r ih =>
    intro cur size c h
    simp only [chunkLoop] at h
    split at h
    · simp at h
      exact h ▸ List.prefix_append cur [l]
    · have := ih (cur ++ [l]) (size + (l.length + 1)) c h
      exact (List.prefix_append cur [l]).trans this

/-- The overlap-chaining shape of a chunk list produced from a line
sequence: either one chunk holding all the lines, or a first chunk `c`
followed by chunks that cover `o ++ tail` where `o` is a non-empty
suffix of `c` (the overlap window) and the next chunk starts with `o`;
the full line sequence is `c ++ tail`.  Reading the chunks in order
with the overlaps identified therefore reproduces the lines
contiguously, with no line skipped or reordered. -/
inductive Chained : List PyStr → List (List PyStr) → Prop
  | single (c : List PyStr) : Chained c [c]
  | step (c o tail : List PyStr) (rest : List (List PyStr))
      (hne : o ≠ []) (hsuf : o <:+ c)
      (hpre : ∀ c', rest.head? = some c' → o <+: c')
      (h : Chained (o ++ tail) rest) :
      Chained (c ++ tail) (c :: rest)

theorem chunkLoop_chained (cs ov : Nat) :
    ∀ (rest cur : List PyStr) (size : Nat), cur ++ rest ≠ [] →
      Chained (cur ++ rest) (chunkLoop cs ov rest cur size) := by
  intro rest
  induction rest with
  | nil =>
    intro cur size h
    rw [List.append_nil] at h ⊢
    simp only [chunkLoop, if_neg h]
    exact Chained.single cur
  | cons l r ih =>
    intro cur size _
    simp only [chunkLoop]
    split
    · have hcur' : cur ++ [l] ≠ [] := by simp
      have holap := overlapOf_ne_nil (cur ++ [l]) ov hcur'
      have hcov : cur ++ l :: r = (cur ++ [l]) ++ r := by simp
      rw [hcov]
      refine Chained.step (cur ++ [l]) (overlapOf (cur ++ [l]) ov) r _ holap
        (overlapOf_suffix _ ov) ?_ ?_
      · intro c' hc'
        exact chunkLoop_head_pref cs ov r _ _ c' hc'
      · exact ih _ _ (by simp [holap])
    · have hcov : cur ++ l :: r = (cur ++ [l]) ++ r := by simp
      rw [hcov]
      exact ih (cur ++ [l]) (size + (l.length + 1)) (by simp)

theorem chunkLoop_dropLast_size (cs ov : Nat) :
    ∀ (rest cur : List PyStr) (size : Nat), size = listSize cur →
      ∀ c ∈ (chunkLoop cs ov rest cur size).dropLast, cs ≤ listSize c := by
  intro rest
  induction rest with
  | nil =>
    intro cur size _ c hc
    simp only [chunkLoop] at hc
    split at hc <;> simp at hc
  | cons l r ih =>
    intro cur size hsz c hc
    simp only [chunkLoop] at hc
    split at hc
    · have hne := chunkLoop_ne_nil cs ov r (overlapOf (cur ++ [l]) ov)
        (listSize (overlapOf (cur ++ [l]) ov))
        (Or.inr (overlapOf_ne_nil _ ov (by simp)))
      rw [List.dropLast_cons_of_ne_nil hne, List.mem_cons] at hc
      rcases hc with hc | hc
      · subst hc
        have hclose : cs ≤ size + (l.length + 1) := by assumption
        rw [hsz] at hclose
        calc cs ≤ listSize cur + (l.length + 1) := hclose
          _ = listSize (cur ++ [l]) := by
            simp only [listSize_append, listSize_cons, listSize_nil]
            try omega
      · exact ih _ _ rfl c hc
    · refine ih (cur ++ [l]) (size + (l.length + 1)) ?_ c hc
      simp only [hsz, listSize_append, listSize_cons, listSize_nil]
      try omega

theorem chunkLoop_two (cs ov : Nat) :
    ∀ (rest cur : List PyStr) (size : Nat), size = listSize cur →
      listSize cur < cs → cs ≤ listSize cur + listSize rest →
      2 ≤ (chunkLoop cs ov rest cur size).length := by
  intro rest
  induction rest with
  | nil =>
    intro cur size _ hlt hge
    simp at hge
    omega
  | cons l r ih =>
    intro cur size hsz hlt hge
    simp only [chunkLoop]
    split
    · have hne := chunkLoop_ne_nil cs ov r (overlapOf (cur ++ [l]) ov)
        (listSize (overlapOf (cur ++ [l]) ov))
        (Or.inr (overlapOf_ne_nil _ ov (by simp)))
      have : 1 ≤ (chunkLoop cs ov r (overlapOf (cur ++ [l]) ov)
          (listSize (overlapOf (cur ++ [l]) ov))).length := by
        rcases h : chunkLoop cs ov r (overlapOf (cur ++ [l]) ov)
            (listSize (overlapOf (cur ++ [l]) ov)) with _ | _
        · exact absurd h hne
        · simp
      simp only [List.length_cons]
      omega
    · have hnclose : ¬ cs ≤ size + (l.length + 1) := by assumption
      refine ih (cur ++ [l]) (size + (l.length + 1)) ?_ ?_ ?_
      · simp only [hsz, listSize_append, listSize_cons, listSize_nil]
        try omega
      · rw [hsz] at hnclose
        simp only [listSize_append, listSize_cons, listSize_nil]
        omega
      · simp only [listSize_append, listSize_cons, listSize_nil] at hge ⊢
        omega

theorem dropLast_map {α β : Type} (f : α → β) :
    ∀ l : List α, (l.map f).dropLast = l.dropLast.map f := by
  intro l
  induction l with
  | nil => rfl
  | cons a r ih =>
    cases r with
    | nil => rfl
    | cons b r' => simp [List.dropLast_cons_of_ne_nil, ih]

/-! ### Claim theorems about the chunker -/

/-- Claim C4: for every input text, each chunk after the first begins
with a non-empty suffix of the lines of the immediately preceding chunk
(the overlap window), and reading the chunks in order with those
overlaps identified reproduces the original line sequence contiguously —
no line is skipped between adjacent chunks and no line appears out of
order.  `Chained` expresses exactly this shape of the chunk list. -/
theorem chunk_code_overlap_chained (content : PyStr) (cs ov : Nat) :
    chunk_code content cs ov = (chunkLinesOf content cs ov).map joinNl ∧
    Chained (splitNl content) (chunkLinesOf content cs ov) := by
  refine ⟨rfl, ?_⟩
  have h := chunkLoop_chained cs ov (splitNl content) [] 0
    (by simpa using splitNl_ne_nil content)
  simpa [chunkLinesOf] using h

/-- Claim C3 (amended): with `chunk_size = 1000` and `overlap = 200`,
for an input of exactly 2500 characters across 50 lines, `chunk_code`
produces more than one chunk, and every chunk except possibly the last
has at least 999 characters (`chunk_size - 1`): the close condition
counts one separator per accumulated line, one more than the joined
chunk text contains, so a non-final chunk can have exactly 999
characters (see the counterexample to the 1000-character reading). -/
theorem chunk_code_min_sizes (content : PyStr)
    (hlen : content.length = 2500) (hlines : (splitNl content).length = 50) :
    1 < (chunk_code content 1000 200).length ∧
    ∀ c ∈ (chunk_code content 1000 200).dropLast, 999 ≤ c.length := by
  constructor
  · have h2 : 2 ≤ (chunkLinesOf content 1000 200).length := by
      refine chunkLoop_two 1000 200 (splitNl content) [] 0 rfl (by simp) ?_
      rw [listSize_nil, listSize_splitNl, hlen]
      omega
    simpa [chunk_code] using h2
  · intro c hc
    rw [chunk_code, dropLast_map] at hc
    obtain ⟨c', hc', rfl⟩ := List.mem_map.mp hc
    have hsz : 1000 ≤ listSize c' :=
      chunkLoop_dropLast_size 1000 200 (splitNl content) [] 0 rfl c' hc'
    have hne : c' ≠ [] := by
      intro h
      rw [h, listSize_nil] at hsz
      omega
    have := joinNl_length c' hne
    omega

/-! ### Concrete 2500-character inputs for C3, handled by lemmas
(kernel evaluation of 2500-element lists is impractical, so the lengths
and the first chunk are computed algebraically). -/

theorem listSize_replicate (n : Nat) (l : PyStr) :
    listSize (List.replicate n l) = n * (l.length + 1) := by
  induction n with
  | zero => simp
  | succ k ih =>
    simp [List.replicate_succ, ih]
    ring

theorem splitNl_no_nl (l : PyStr) (h : '\n' ∉ l) : splitNl l = [l] := by
  induction l with
  | nil => rfl
  | cons c rest ih =>
    have hc : c ≠ '\n' := by
      intro e
      exact h (e ▸ List.mem_cons_self c rest)
    have hr : '\n' ∉ rest := fun m => h (List.mem_cons_of_mem c m)
    simp only [splitNl, if_neg hc, ih hr]

theorem splitNl_append_left (l s : PyStr) (h : '\n' ∉ l) :
    splitNl (l ++ s) = (l ++ (splitNl s).headI) :: (splitNl s).tail := by
  induction l with
  | nil =>
    rcases hs : splitNl s with _ | ⟨a, t⟩
    · exact absurd hs (splitNl_ne_nil s)
    · simp [hs]
  | cons c rest ih =>
    have hc : c ≠ '\n' := by
      intro e
      exact h (e ▸ List.mem_cons_self c rest)
    have hr : '\n' ∉ rest := fun m => h (List.mem_cons_of_mem c m)
    simp only [List.cons_append, splitNl, if_neg hc, List.append_eq]
    rw [ih hr]

theorem splitNl_joinNl (ls : List PyStr) (hne : ls ≠ [])
    (h : ∀ l ∈ ls, '\n' ∉ l) : splitNl (joinNl ls) = ls := by
  induction ls with
  | nil => exact absurd rfl hne
  | cons l rest ih =>
    cases rest with
    | nil => exact splitNl_no_nl l (h l (by simp))
    | cons l' ls' =>
      have h1 : '\n' ∉ l := h l (by simp)
      have hrec := ih (by simp) (fun x hx => h x (List.mem_cons_of_mem l hx))
      show splitNl (l ++ '\n' :: joinNl (l' :: ls')) = l :: l' :: ls'
      rw [splitNl_append_left l _ h1]
      have hsp : splitNl ('\n' :: joinNl (l' :: ls')) =
          [] :: splitNl (joinNl (l' :: ls')) := by
        simp [splitNl]
      rw [hsp, hrec]
      simp

/-- Witness input for C3: 49 lines of 50 characters plus one final
one-character line — 2500 characters over 50 lines. -/
def c3WitContent : PyStr :=
  joinNl (List.replicate 49 (List.replicate 50 'a') ++ [['b']])

theorem c3WitContent_lines :
    splitNl c3WitContent = List.replicate 49 (List.replicate 50 'a') ++ [['b']] := by
  refine splitNl_joinNl _ (by simp) ?_
  intro l hl
  rcases List.mem_append.mp hl with hl | hl
  · rw [List.eq_of_mem_replicate hl]
    intro m
    have := List.eq_of_mem_replicate m
    exact absurd this (by decide)
  · simp at hl
    subst hl
    decide

theorem c3WitContent_length : c3WitContent.length = 2500 := by
  have h := joinNl_length (List.replicate 49 (List.replicate 50 'a') ++ [['b']])
    (by simp)
  rw [listSize_append, listSize_replicate] at h
  simp only [List.length_replicate, listSize_cons, listSize_nil,
    List.length_cons, List.length_nil] at h
  show (joinNl (List.replicate 49 (List.replicate 50 'a') ++ [['b']])).length = 2500
  omega

theorem c3WitContent_linecount : (splitNl c3WitContent).length = 50 := by
  rw [c3WitContent_lines]
  simp

theorem chunk_code_min_sizes_witness :
    c3WitContent.length = 2500 ∧ (splitNl c3WitContent).length = 50 ∧
    (1 < (chunk_code c3WitContent 1000 200).length ∧
     ∀ c ∈ (chunk_code c3WitContent 1000 200).dropLast, 999 ≤ c.length) :=
  ⟨c3WitContent_length, c3WitContent_linecount,
    chunk_code_min_sizes c3WitContent c3WitContent_length c3WitContent_linecount⟩

/-- A 99-character line: ten of them close a chunk at a counted size of
exactly 1000. -/
def cexL : PyStr := List.replicate 99 'a'

/-- A 37-character filler line for the counterexample input. -/
def cexM : PyStr := List.replicate 37 'c'

/-- The 18-character final line of the counterexample input. -/
def cexN : PyStr := List.replicate 18 'd'

/-- Counterexample input for C3 as originally stated: 10 lines of 99
characters (the 10th line closes the first chunk at a counted size of
exactly 1000, so the joined chunk has 999 characters), then 39 lines of
37 characters and one line of 18 — 2500 characters over 50 lines. -/
def c3CexContent : PyStr :=
  joinNl (List.replicate 10 cexL ++ (List.replicate 39 cexM ++ [cexN]))

theorem c3CexContent_lines :
    splitNl c3CexContent =
      List.replicate 10 cexL ++ (List.replicate 39 cexM ++ [cexN]) := by
  refine splitNl_joinNl _ (by simp) ?_
  intro l hl
  rcases List.mem_append.mp hl with hl | hl
  · rw [List.eq_of_mem_replicate hl]
    intro m
    exact absurd (List.eq_of_mem_replicate m) (by decide)
  · rcases List.mem_append.mp hl with hl | hl
    · rw [List.eq_of_mem_replicate hl]
      intro m
      exact absurd (List.eq_of_mem_replicate m) (by decide)
    · simp at hl
      subst hl
      intro m
      exact absurd (List.eq_of_mem_replicate m) (by decide)

theorem c3CexContent_length : c3CexContent.length = 2500 := by
  have hL : cexL.length = 99 := by simp [cexL]
  have hM : cexM.length = 37 := by simp [cexM]
  have hN : cexN.length = 18 := by simp [cexN]
  have h := joinNl_length (List.replicate 10 cexL ++ (List.replicate 39 cexM ++ [cexN]))
    (by simp)
  rw [listSize_append, listSize_append, listSize_replicate, listSize_replicate,
    listSize_cons, listSize_nil, hL, hM, hN] at h
  show (joinNl (List.replicate 10 cexL ++ (List.replicate 39 cexM ++ [cexN]))).length = 2500
  omega

theorem c3CexContent_linecount : (splitNl c3CexContent).length = 50 := by
  rw [c3CexContent_lines]
  simp

theorem chunkLoop_head_close (cs ov : Nat) (l : PyStr) (rest cur : List PyStr)
    (size : Nat) (h : cs ≤ size + (l.length + 1)) :
    (chunkLoop cs ov (l :: rest) cur size).head? = some (cur ++ [l]) := by
  simp [chunkLoop, if_pos h]

theorem chunkLoop_skip (cs ov : Nat) (l : PyStr) (rest cur : List PyStr)
    (size : Nat) (h : ¬ cs ≤ size + (l.length + 1)) :
    chunkLoop cs ov (l :: rest) cur size =
      chunkLoop cs ov rest (cur ++ [l]) (size + (l.length + 1)) := by
  simp [chunkLoop, if_neg h]

theorem c3Cex_first_chunk :
    (chunkLinesOf c3CexContent 1000 200).head? = some (List.replicate 10 cexL) := by
  rw [chunkLinesOf, c3CexContent_lines]
  have hrepl : List.replicate 10 cexL ++ (List.replicate 39 cexM ++ [cexN]) =
      cexL :: cexL :: cexL :: cexL :: cexL :: cexL :: cexL :: cexL :: cexL :: cexL ::
        (List.replicate 39 cexM ++ [cexN]) := by
    simp [List.replicate_succ]
  rw [hrepl]
  rw [chunkLoop_skip, chunkLoop_skip, chunkLoop_skip, chunkLoop_skip, chunkLoop_skip,
    chunkLoop_skip, chunkLoop_skip, chunkLoop_skip, chunkLoop_skip, chunkLoop_head_close]
  · simp [List.replicate_succ]
  all_goals norm_num [cexL, List.length_replicate]

/-- Counterexample to C3 as stated: an input of exactly 2500 characters
across 50 lines whose chunking has more than one chunk but whose first
(hence non-last) chunk has only 999 characters, below the claimed
1000-character threshold. -/
theorem chunk_code_min_sizes_cex :
    c3CexContent.length = 2500 ∧ (splitNl c3CexContent).length = 50 ∧
    1 < (chunk_code c3CexContent 1000 200).length ∧
    ((chunk_code c3CexContent 1000 200).map List.length).head? = some 999 := by
  refine ⟨c3CexContent_length, c3CexContent_linecount, ?_, ?_⟩
  · have h2 : 2 ≤ (chunkLinesOf c3CexContent 1000 200).length := by
      refine chunkLoop_two 1000 200 (splitNl c3CexContent) [] 0 rfl (by simp) ?_
      rw [listSize_nil, listSize_splitNl, c3CexContent_length]
      omega
    simpa [chunk_code] using h2
  · rw [chunk_code, List.map_map, List.head?_map, c3Cex_first_chunk]
    have hlen : (joinNl (List.replicate 10 cexL)).length = 999 := by
      have hL : cexL.length = 99 := by simp [cexL]
      have h := joinNl_length (List.replicate 10 cexL) (by simp)
      rw [listSize_replicate, hL] at h
      omega
    exact congrArg some hlen

/-- Claim C9: `chunk_code` always returns a non-empty chunk list (the
empty string yields exactly one chunk, the empty chunk); and whenever
the size threshold is reached on the very last line, the loop emits the
closed chunk followed by one additional final chunk holding exactly the
overlap lines of the just-closed chunk — a non-empty suffix of it,
entirely duplicated from it. -/
theorem chunk_code_nonempty_final_overlap :
    (∀ (content : PyStr) (cs ov : Nat), chunk_code content cs ov ≠ []) ∧
    chunk_code [] 1000 200 = [[]] ∧
    (∀ (cs ov : Nat) (cur : List PyStr) (l : PyStr) (size : Nat),
      cs ≤ size + (l.length + 1) →
      chunkLoop cs ov [l] cur size =
        [cur ++ [l], overlapOf (cur ++ [l]) ov] ∧
      overlapOf (cur ++ [l]) ov ≠ [] ∧
      overlapOf (cur ++ [l]) ov <:+ (cur ++ [l])) := by
  refine ⟨?_, by decide, ?_⟩
  · intro content cs ov
    have h := chunkLoop_ne_nil cs ov (splitNl content) [] 0
      (Or.inl (splitNl_ne_nil content))
    simp only [chunk_code, chunkLinesOf, ne_eq, List.map_eq_nil_iff]
    exact h
  · intro cs ov cur l size hclose
    have holap : overlapOf (cur ++ [l]) ov ≠ [] :=
      overlapOf_ne_nil (cur ++ [l]) ov (by simp)
    refine ⟨?_, holap, overlapOf_suffix _ ov⟩
    simp only [chunkLoop, if_pos hclose, if_neg holap]

theorem chunk_code_nonempty_final_overlap_witness :
    (5 : Nat) ≤ 3 + (['c', 'd'].length + 1) ∧
    (chunkLoop 5 3 [['c', 'd']] [['a', 'b']] 3 =
       [[['a', 'b'], ['c', 'd']], overlapOf [['a', 'b'], ['c', 'd']] 3] ∧
     overlapOf [['a', 'b'], ['c', 'd']] 3 ≠ [] ∧
     overlapOf [['a', 'b'], ['c', 'd']] 3 <:+ [['a', 'b'], ['c', 'd']]) :=
  ⟨by decide, chunk_code_nonempty_final_overlap.2.2 5 3 [['a', 'b']] ['c', 'd'] 3
    (by decide)⟩

/-! ## Structural extractor — `RepoIngester.extract_python_metadata`
(ingestion/ingest.py)

The source opens the file, parses it with `ast.parse`, walks the tree
with `ast.walk` (breadth-first), collects `FunctionDef`, `ClassDef` and
`Import`/`ImportFrom` nodes, and returns functions/classes/imports and
`len(content.splitlines())`; any exception yields the empty result with
zero lines.  Reading and parsing are external effects, modelled as
`Except`-valued inputs.  `ast.get_docstring` is modelled as a stored
optional docstring on definition nodes. -/

/-- A Python AST statement node, restricted to the shapes
`extract_python_metadata` inspects; `other` covers every remaining
statement kind through its nested body. -/
inductive PyNode where
  | functionDef (name : PyStr) (lineno : Nat) (args : List PyStr)
      (docstring : Option PyStr) (body : List PyNode)
  | classDef (name : PyStr) (lineno : Nat) (docstring : Option PyStr)
      (body : List PyNode)
  | importN (names : List PyStr)
  | importFrom (module : Option PyStr)
  | other (body : List PyNode)

/-- Child statements of a node, as enqueued by `ast.walk`. -/
def nodeChildren : PyNode → List PyNode
  | .functionDef _ _ _ _ body => body
  | .classDef _ _ _ body => body
  | .importN _ => []
  | .importFrom _ => []
  | .other body => body

mutual

def nodeSize : PyNode → Nat
  | .functionDef _ _ _ _ body => 1 + nodesSize body
  | .classDef _ _ _ body => 1 + nodesSize body
  | .importN _ => 1
  | .importFrom _ => 1
  | .other body => 1 + nodesSize body

def nodesSize : List PyNode → Nat
  | [] => 0
  | n :: rest => nodeSize n + nodesSize rest

end

theorem nodesSize_append (a b : List PyNode) :
    nodesSize (a ++ b) = nodesSize a + nodesSize b := by
  induction a with
  | nil => simp [nodesSize]
  | cons n rest ih => simp [nodesSize, ih]; omega

theorem nodeChildren_size_lt (n : PyNode) : nodesSize (nodeChildren n) < nodeSize n := by
  cases n <;> simp [nodeChildren, nodeSize, nodesSize]

/-- Breadth-first traversal, as `ast.walk` does with its FIFO queue. -/
def walkBfs (queue : List PyNode) : List PyNode :=
  match queue with
  | [] => []
  | n :: rest => n :: walkBfs (rest ++ nodeChildren n)
termination_by nodesSize queue
decreasing_by
  simp only [nodesSize, nodesSize_append]
  have := nodeChildren_size_lt n
  omega

/-- A function record of the extractor: name, 1-based line, argument
names, optional docstring. -/
structure FuncEntry where
  name : PyStr
  line : Nat
  args : List PyStr
  docstring : Option PyStr
  deriving DecidableEq

/-- A class record of the extractor: name, 1-based line, direct method
names, optional docstring. -/
structure ClassEntry where
  name : PyStr
  line : Nat
  methods : List PyStr
  docstring : Option PyStr
  deriving DecidableEq

/-- The result record of `extract_python_metadata`. -/
structure ExtractResult where
  functions : List FuncEntry
  classes : List ClassEntry
  imports : List PyStr
  lines : Nat
  deriving DecidableEq

/-- Direct `FunctionDef` children of a class body — the `methods` list. -/
def methodNames (body : List PyNode) : List PyStr :=
  body.filterMap fun n =>
    match n with
    | .functionDef name _ _ _ _ => some name
    | _ => none

def collectFuncs (nodes : List PyNode) : List FuncEntry :=
  nodes.filterMap fun n =>
    match n with
    | .functionDef name line args doc _ => some ⟨name, line, args, doc⟩
    | _ => none

def collectClasses (nodes : List PyNode) : List ClassEntry :=
  nodes.filterMap fun n =>
    match n with
    | .classDef name line doc body => some ⟨name, line, methodNames body, doc⟩
    | _ => none

/-- Import names in walk order: each `Import` contributes its alias
names, each `ImportFrom` its module name or `""` when absent. -/
def collectImports (nodes : List PyNode) : List PyStr :=
  (nodes.map fun n =>
    match n with
    | .importN names => names
    | .importFrom m => [m.getD []]
    | _ => []).flatten

/-- Python `len(content.splitlines())` for newline-separated content: a
trailing newline does not open a new line (the model keeps to `\n`
separators, the only ones the repository's own files use). -/
def pyLineCount (s : PyStr) : Nat :=
  match s with
  | [] => 0
  | _ => (splitNl s).length - (if s.getLast? = some '\n' then 1 else 0)

/-- The result returned by the `except` branch: no functions, classes
or imports, and a line count of zero. -/
def emptyExtract : ExtractResult := ⟨[], [], [], 0⟩

/-- `RepoIngester.extract_python_metadata(file_path)`. The file read and
the `ast.parse` call are the two effects that can raise inside the
`try`; both are passed in as `Except`-valued inputs, and the function
itself is total — it never raises. `list(set(imports))` is modelled with
`List.dedup` (Python's set iteration order is unspecified). -/
def extract_python_metadata (readRes : Except PyStr PyStr)
    (parse : PyStr → Except PyStr (List PyNode)) : ExtractResult :=
  match readRes with
  | .error _ => emptyExtract
  | .ok content =>
    match parse content with
    | .error _ => emptyExtract
    | .ok body =>
      let nodes := walkBfs body
      { functions := collectFuncs nodes
        classes := collectClasses nodes
        imports := (collectImports nodes).dedup
        lines := pyLineCount content }

/-- Claim C6: the Structural Extractor never raises (it is a total
function of its effect outcomes), and if reading the file or parsing it
fails for any reason it returns the empty result: no functions, no
classes, no imports, zero lines — so one malformed file cannot abort a
repository scan. -/
theorem extract_python_metadata_fail_empty (readRes : Except PyStr PyStr)
    (parse : PyStr → Except PyStr (List PyNode))
    (h : ∀ content, readRes = .ok content → ∃ e, parse content = .error e) :
    extract_python_metadata readRes parse = emptyExtract := by
  cases readRes with
  | error e => rfl
  | ok content =>
    obtain ⟨e, he⟩ := h content rfl
    simp [extract_python_metadata, he]

theorem extract_python_metadata_fail_empty_witness :
    (∀ content, (Except.ok ['('] : Except PyStr PyStr) = .ok content →
      ∃ e, (fun _ : PyStr => (Except.error "SyntaxError".data :
        Except PyStr (List PyNode))) content = .error e) ∧
    extract_python_metadata (Except.ok ['('])
      (fun _ => Except.error "SyntaxError".data) = emptyExtract :=
  ⟨fun _ _ => ⟨"SyntaxError".data, rfl⟩,
    extract_python_metadata_fail_empty _ _ (fun _ _ => ⟨"SyntaxError".data, rfl⟩)⟩

/-! ## Repository scanner — `RepoIngester.scan_repository`
(ingestion/ingest.py)

The source iterates `repo_path.rglob("*.py")` and skips a file when
`".git" in str(py_file) or "venv" in str(py_file)` — a *substring* test
on the file's full path string, not a directory-name test.  The
directory walk itself is an external effect: the tree is passed in as
the list of relative paths `rglob` would enumerate, and per-file
extraction as a function of the full path. -/

/-- A commit record of the scanner's git-history extraction. -/
structure CommitMeta where
  sha : PyStr
  author : PyStr
  date : PyStr
  message : PyStr
  deriving DecidableEq

/-- One entry of `files_metadata`. -/
structure ScanFileEntry where
  path : PyStr
  full_path : PyStr
  meta : ExtractResult
  deriving DecidableEq

/-- `repo_path / rel` rendered as a path string. -/
def pathJoin (dir rel : PyStr) : PyStr := dir ++ '/' :: rel

/-- Python `needle in hay` on strings: substring containment. -/
def hasSub (needle : PyStr) : PyStr → Bool
  | [] => decide (needle = [])
  | c :: rest => needle.isPrefixOf (c :: rest) || hasSub needle rest

/-- The skip test of `scan_repository`:
`".git" in str(py_file) or "venv" in str(py_file)`. -/
def denyHit (p : PyStr) : Bool := hasSub ".git".data p || hasSub "venv".data p

/-- `rglob("*.py")`: the tree entries whose name ends in `.py`. -/
def rglobPy (tree : List PyStr) : List PyStr :=
  tree.filter (fun rel => ".py".data.isSuffixOf rel)

/-- The repository-metadata document built by `scan_repository`. -/
structure ScanResult where
  name : PyStr
  path : PyStr
  files : List ScanFileEntry
  commits : List CommitMeta
  total_files : Nat
  total_functions : Nat
  total_classes : Nat
  deriving DecidableEq

/-- `RepoIngester.scan_repository(repo_path, repo_name)`: filter the
`rglob` enumeration by the substring deny test, extract per file, keep
the last 10 commits (empty on git failure), and fill in the totals. -/
def scan_repository (extract : PyStr → ExtractResult)
    (gitCommits : Except PyStr (List CommitMeta))
    (repoPath : PyStr) (repoName : PyStr) (tree : List PyStr) : ScanResult :=
  let files := (rglobPy tree).filterMap fun rel =>
    if denyHit (pathJoin repoPath rel) then none
    else some ⟨rel, pathJoin repoPath rel, extract (pathJoin repoPath rel)⟩
  { name := repoName
    path := repoPath
    files := files
    commits := match gitCommits with | .ok cs => cs.take 10 | .error _ => []
    total_files := files.length
    total_functions := (files.map (fun f => f.meta.functions.length)).sum
    total_classes := (files.map (fun f => f.meta.classes.length)).sum }

/-- Claim C2 (amended): the scanner includes exactly those tree entries
ending in `.py` whose full path string (repository path, `/`, relative
path) does not contain `".git"` or `"venv"` as a substring.  Exclusion
is a substring test on the whole path string, not a directory-name
test, so a file whose own filename merely contains a deny-listed name
is excluded, not scanned (see the counterexample). -/
theorem scan_repository_membership (extract : PyStr → ExtractResult)
    (gitCommits : Except PyStr (List CommitMeta))
    (repoPath repoName : PyStr) (tree : List PyStr) (rel : PyStr) :
    (∃ e ∈ (scan_repository extract gitCommits repoPath repoName tree).files,
        e.path = rel) ↔
      (rel ∈ tree ∧ ".py".data.isSuffixOf rel = true ∧
        denyHit (pathJoin repoPath rel) = false) := by
  constructor
  · rintro ⟨e, he, hpath⟩
    obtain ⟨a, ha, hfa⟩ := List.mem_filterMap.mp he
    by_cases hd : denyHit (pathJoin repoPath a)
    · simp [hd] at hfa
    · simp only [hd, if_neg, Bool.false_eq_true, not_false_iff, if_false] at hfa
      have he2 := Option.some.inj hfa
      have hae : a = rel := by
        rw [← he2] at hpath
        simpa using hpath
      subst hae
      have hmem := List.mem_filter.mp ha
      exact ⟨hmem.1, hmem.2, by simpa using hd⟩
  · rintro ⟨htree, hsuf, hdeny⟩
    refine ⟨⟨rel, pathJoin repoPath rel, extract (pathJoin repoPath rel)⟩, ?_, rfl⟩
    apply List.mem_filterMap.mpr
    refine ⟨rel, List.mem_filter.mpr ⟨htree, hsuf⟩, ?_⟩
    simp [hdeny]

/-- Counterexample to C2 as stated: `my_venv.py` sits at the repository
root (no enclosing directory inside the repository, hence none with a
deny-listed name), ends in `.py`, yet the scanner excludes it because
`"venv"` occurs as a substring of its filename. -/
theorem scan_repository_substring_cex :
    ('/' ∉ ("my_venv.py".data : PyStr)) ∧
    ".py".data.isSuffixOf "my_venv.py".data = true ∧
    (scan_repository (fun _ => emptyExtract) (Except.error [])
      "/data/repos/proj".data "proj".data ["my_venv.py".data]).files = [] := by
  decide

/-! ## Graph loader — `GraphLoader` (core/graph_loader.py)

The graph store is modelled as association lists of key/property nodes
per label, plus raw edge lists.  Each Cypher statement of the loader is
embedded by its `MATCH`/`MERGE`/`SET` semantics:

* `MERGE (n:L {key: $k}) SET n.p = $v ...` — upsert: if a node with the
  key exists, overwrite its properties, else append a new node;
* `MATCH (x:L {key: $k}) ... MERGE ...` — if no node with the key
  exists the whole statement matches nothing and is a no-op;
* `MERGE (a)-[:R]->(b)` — append the edge unless already present.

Metadata documents are the `ScanResult` records the scanner persists
(`load_from_metadata_dir` feeds them to `load_repository` unchanged).
Constraint creation (`_create_constraints`) does not change the data
and is not part of the state model. -/

structure RepoProps where
  path : PyStr
  total_files : Nat
  total_functions : Nat
  total_classes : Nat
  deriving DecidableEq

structure FileProps where
  path : PyStr
  lines : Nat
  deriving DecidableEq

structure FuncProps where
  name : PyStr
  line : Nat
  args : List PyStr
  docstring : Option PyStr
  deriving DecidableEq

structure ClassProps where
  name : PyStr
  line : Nat
  methods : List PyStr
  docstring : Option PyStr
  deriving DecidableEq

structure CommitProps where
  author : PyStr
  date : PyStr
  message : PyStr
  deriving DecidableEq

/-- The property-graph state: one keyed node list per label (Module
nodes carry only their name) and one list per relationship type. -/
structure GraphState where
  repos : List (PyStr × RepoProps)
  files : List (PyStr × FileProps)
  funcs : List (PyStr × FuncProps)
  classes : List (PyStr × ClassProps)
  modules : List PyStr
  commits : List (PyStr × CommitProps)
  containsE : List (PyStr × PyStr)
  definesFnE : List (PyStr × PyStr)
  definesClsE : List (PyStr × PyStr)
  importsE : List (PyStr × PyStr)
  hasCommitE : List (PyStr × PyStr)
  deriving DecidableEq

/-- Does a node with this key exist (the `MATCH`/`MERGE` key lookup)? -/
def hasKey {α : Type} (k : PyStr) (l : List (PyStr × α)) : Bool :=
  l.any (fun e => e.1 = k)

/-- `MERGE ... SET ...` on a keyed node list: overwrite the properties
under an existing key, else append the node. -/
def upsert {α : Type} (k : PyStr) (p : α) (l : List (PyStr × α)) :
    List (PyStr × α) :=
  if hasKey k l then l.map (fun e => if e.1 = k then (k, p) else e)
  else l ++ [(k, p)]

/-- `MERGE (a)-[:R]->(b)`: append the edge unless present. -/
def mergeEdge (e : PyStr × PyStr) (l : List (PyStr × PyStr)) :
    List (PyStr × PyStr) :=
  if e ∈ l then l else l ++ [e]

/-- `MERGE (dep:Module {name: $import})`: Module nodes have no other
properties, so the merge only inserts a missing name. -/
def mergeName (k : PyStr) (l : List PyStr) : List PyStr :=
  if k ∈ l then l else l ++ [k]

/-- `f"{file_path}::{func['name']}::{func['line']}"`. -/
def funcId (fp : PyStr) (f : FuncEntry) : PyStr :=
  fp ++ "::".data ++ f.name ++ "::".data ++ (toString f.line).data

/-- `f"{file_path}::{cls['name']}::{cls['line']}"`. -/
def classId (fp : PyStr) (c : ClassEntry) : PyStr :=
  fp ++ "::".data ++ c.name ++ "::".data ++ (toString c.line).data

/-- `GraphLoader._load_function`: `MATCH` the owning File (no-op when
absent), `MERGE` the Function by id with `SET` properties, `MERGE` the
DEFINES edge. -/
def load_function (fp : PyStr) (f : FuncEntry) (s : GraphState) : GraphState :=
  if hasKey fp s.files then
    { s with
      funcs := upsert (funcId fp f) ⟨f.name, f.line, f.args, f.docstring⟩ s.funcs
      definesFnE := mergeEdge (fp, funcId fp f) s.definesFnE }
  else s

/-- `GraphLoader._load_class`. -/
def load_class (fp : PyStr) (c : ClassEntry) (s : GraphState) : GraphState :=
  if hasKey fp s.files then
    { s with
      classes := upsert (classId fp c) ⟨c.name, c.line, c.methods, c.docstring⟩
        s.classes
      definesClsE := mergeEdge (fp, classId fp c) s.definesClsE }
  else s

/-- `GraphLoader._load_import`: `MATCH` the File, `MERGE` the Module
node and the IMPORTS edge. -/
def load_import (fp : PyStr) (imp : PyStr) (s : GraphState) : GraphState :=
  if hasKey fp s.files then
    { s with
      modules := mergeName imp s.modules
      importsE := mergeEdge (fp, imp) s.importsE }
  else s

/-- `GraphLoader._load_commit`: `MATCH` the Repository, `MERGE` the
Commit by sha with `SET` properties, `MERGE` the HAS_COMMIT edge. -/
def load_commit (repo : PyStr) (cm : CommitMeta) (s : GraphState) : GraphState :=
  if hasKey repo s.repos then
    { s with
      commits := upsert cm.sha ⟨cm.author, cm.date, cm.message⟩ s.commits
      hasCommitE := mergeEdge (repo, cm.sha) s.hasCommitE }
  else s

/-- `GraphLoader._load_file`: the file statement (`MATCH` Repository,
`MERGE` File with `SET`, `MERGE` CONTAINS), then the function, class
and import loops — which run regardless of whether the file statement
matched, each re-matching the File node. -/
def load_file (repo : PyStr) (fm : ScanFileEntry) (s : GraphState) : GraphState :=
  let s1 :=
    if hasKey repo s.repos then
      { s with
        files := upsert fm.full_path ⟨fm.path, fm.meta.lines⟩ s.files
        containsE := mergeEdge (repo, fm.full_path) s.containsE }
    else s
  let s2 := fm.meta.functions.foldl (fun st f => load_function fm.full_path f st) s1
  let s3 := fm.meta.classes.foldl (fun st c => load_class fm.full_path c st) s2
  fm.meta.imports.foldl (fun st i => load_import fm.full_path i st) s3

/-- `GraphLoader.load_repository(metadata)`: `MERGE` the Repository
with `SET` totals, then every file (with its functions, classes and
imports), then every commit. -/
def load_repository (m : ScanResult) (s : GraphState) : GraphState :=
  let s1 := { s with
    repos := upsert m.name
      ⟨m.path, m.total_files, m.total_functions, m.total_classes⟩ s.repos }
  let s2 := m.files.foldl (fun st fm => load_file m.name fm st) s1
  m.commits.foldl (fun st cm => load_commit m.name cm st) s2

/-- The identity part of the graph state: node keys per label and the
raw edge lists (properties erased). -/
structure GraphKeys where
  repoKeys : List PyStr
  fileKeys : List PyStr
  funcKeys : List PyStr
  classKeys : List PyStr
  moduleKeys : List PyStr
  commitKeys : List PyStr
  containsE : List (PyStr × PyStr)
  definesFnE : List (PyStr × PyStr)
  definesClsE : List (PyStr × PyStr)
  importsE : List (PyStr × PyStr)
  hasCommitE : List (PyStr × PyStr)
  deriving DecidableEq

def keysOf (s : GraphState) : GraphKeys :=
  ⟨s.repos.map Prod.fst, s.files.map Prod.fst, s.funcs.map Prod.fst,
   s.classes.map Prod.fst, s.modules, s.commits.map Prod.fst,
   s.containsE, s.definesFnE, s.definesClsE, s.importsE, s.hasCommitE⟩

/-- Total number of nodes in the graph (all six labels). -/
def nodeCount (s : GraphState) : Nat :=
  s.repos.length + s.files.length + s.funcs.length + s.classes.length +
    s.modules.length + s.commits.length

/-- Total number of relationships in the graph (all five types). -/
def edgeCount (s : GraphState) : Nat :=
  s.containsE.length + s.definesFnE.length + s.definesClsE.length +
    s.importsE.length + s.hasCommitE.length

/-! ### Primitive upsert/merge lemmas -/

theorem hasKey_iff {α : Type} (k : PyStr) (l : List (PyStr × α)) :
    hasKey k l = true ↔ k ∈ l.map Prod.fst := by
  rw [hasKey, List.any_eq_true]
  simp only [decide_eq_true_eq, List.mem_map]

theorem map_update_fst {α : Type} (k : PyStr) (p : α) (l : List (PyStr × α)) :
    (l.map (fun e => if e.1 = k then (k, p) else e)).map Prod.fst =
      l.map Prod.fst := by
  induction l with
  | nil => rfl
  | cons e t ih =>
    by_cases he : e.1 = k
    · simp [he, ih]
    · simp [he, ih]

theorem upsert_keys_of_mem {α : Type} (k : PyStr) (p : α) (l : List (PyStr × α))
    (h : k ∈ l.map Prod.fst) :
    (upsert k p l).map Prod.fst = l.map Prod.fst := by
  rw [upsert, if_pos ((hasKey_iff k l).mpr h)]
  exact map_update_fst k p l

theorem upsert_keys_mem {α : Type} (k : PyStr) (p : α) (l : List (PyStr × α)) :
    k ∈ (upsert k p l).map Prod.fst := by
  by_cases h : k ∈ l.map Prod.fst
  · rw [upsert_keys_of_mem k p l h]
    exact h
  · rw [upsert, if_neg (fun hk => h ((hasKey_iff k l).mp hk))]
    rw [List.map_append]
    exact List.mem_append_right _ (List.mem_singleton_self k)

theorem upsert_keys_mono {α : Type} (k : PyStr) (p : α) (l : List (PyStr × α)) :
    l.map Prod.fst ⊆ (upsert k p l).map Prod.fst := by
  by_cases h : k ∈ l.map Prod.fst
  · rw [upsert_keys_of_mem k p l h]
    exact fun _ hx => hx
  · rw [upsert, if_neg (fun hk => h ((hasKey_iff k l).mp hk))]
    intro x hx
    rw [List.map_append]
    exact List.mem_append_left _ hx

theorem mergeEdge_of_mem (e : PyStr × PyStr) (l : List (PyStr × PyStr))
    (h : e ∈ l) : mergeEdge e l = l := if_pos h

theorem mergeEdge_mem (e : PyStr × PyStr) (l : List (PyStr × PyStr)) :
    e ∈ mergeEdge e l := by
  by_cases h : e ∈ l
  · rw [mergeEdge_of_mem e l h]
    exact h
  · rw [mergeEdge, if_neg h]
    simp

theorem mergeEdge_mono (e : PyStr × PyStr) (l : List (PyStr × PyStr)) :
    l ⊆ mergeEdge e l := by
  by_cases h : e ∈ l
  · rw [mergeEdge_of_mem e l h]
    exact fun _ hx => hx
  · rw [mergeEdge, if_neg h]
    intro x hx
    exact List.mem_append_left _ hx

theorem mergeName_of_mem (k : PyStr) (l : List PyStr) (h : k ∈ l) :
    mergeName k l = l := if_pos h

theorem mergeName_mem (k : PyStr) (l : List PyStr) : k ∈ mergeName k l := by
  by_cases h : k ∈ l
  · rw [mergeName_of_mem k l h]
    exact h
  · rw [mergeName, if_neg h]
    simp

theorem mergeName_mono (k : PyStr) (l : List PyStr) : l ⊆ mergeName k l := by
  by_cases h : k ∈ l
  · rw [mergeName_of_mem k l h]
    exact fun _ hx => hx
  · rw [mergeName, if_neg h]
    intro x hx
    exact List.mem_append_left _ hx

/-! ### Key-set monotonicity: every load step only adds keys/edges -/

/-- Componentwise containment of graph identities. -/
structure KeysLE (g g' : GraphKeys) : Prop where
  repo : g.repoKeys ⊆ g'.repoKeys
  file : g.fileKeys ⊆ g'.fileKeys
  func : g.funcKeys ⊆ g'.funcKeys
  cls : g.classKeys ⊆ g'.classKeys
  modK : g.moduleKeys ⊆ g'.moduleKeys
  commit : g.commitKeys ⊆ g'.commitKeys
  ce : g.containsE ⊆ g'.containsE
  fe : g.definesFnE ⊆ g'.definesFnE
  cle : g.definesClsE ⊆ g'.definesClsE
  ie : g.importsE ⊆ g'.importsE
  hce : g.hasCommitE ⊆ g'.hasCommitE

theorem keysLE_refl (g : GraphKeys) : KeysLE g g :=
  ⟨fun _ h => h, fun _ h => h, fun _ h => h, fun _ h => h, fun _ h => h,
   fun _ h => h, fun _ h => h, fun _ h => h, fun _ h => h, fun _ h => h,
   fun _ h => h⟩

theorem keysLE_trans {a b c : GraphKeys} (h1 : KeysLE a b) (h2 : KeysLE b c) :
    KeysLE a c :=
  ⟨fun _ h => h2.repo (h1.repo h), fun _ h => h2.file (h1.file h),
   fun _ h => h2.func (h1.func h), fun _ h => h2.cls (h1.cls h),
   fun _ h => h2.modK (h1.modK h), fun _ h => h2.commit (h1.commit h),
   fun _ h => h2.ce (h1.ce h), fun _ h => h2.fe (h1.fe h),
   fun _ h => h2.cle (h1.cle h), fun _ h => h2.ie (h1.ie h),
   fun _ h => h2.hce (h1.hce h)⟩

theorem load_function_mono (fp : PyStr) (f : FuncEntry) (s : GraphState) :
    KeysLE (keysOf s) (keysOf (load_function fp f s)) := by
  rw [load_function]
  split
  · exact ⟨fun _ h => h, fun _ h => h, upsert_keys_mono _ _ _, fun _ h => h,
      fun _ h => h, fun _ h => h, fun _ h => h, mergeEdge_mono _ _,
      fun _ h => h, fun _ h => h, fun _ h => h⟩
  · exact keysLE_refl _

theorem load_class_mono (fp : PyStr) (c : ClassEntry) (s : GraphState) :
    KeysLE (keysOf s) (keysOf (load_class fp c s)) := by
  rw [load_class]
  split
  · exact ⟨fun _ h => h, fun _ h => h, fun _ h => h, upsert_keys_mono _ _ _,
      fun _ h => h, fun _ h => h, fun _ h => h, fun _ h => h,
      mergeEdge_mono _ _, fun _ h => h, fun _ h => h⟩
  · exact keysLE_refl _

theorem load_import_mono (fp imp : PyStr) (s : GraphState) :
    KeysLE (keysOf s) (keysOf (load_import fp imp s)) := by
  rw [load_import]
  split
  · exact ⟨fun _ h => h, fun _ h => h, fun _ h => h, fun _ h => h,
      mergeName_mono _ _, fun _ h => h, fun _ h => h, fun _ h => h,
      fun _ h => h, mergeEdge_mono _ _, fun _ h => h⟩
  · exact keysLE_refl _

theorem load_commit_mono (repo : PyStr) (cm : CommitMeta) (s : GraphState) :
    KeysLE (keysOf s) (keysOf (load_commit repo cm s)) := by
  rw [load_commit]
  split
  · exact ⟨fun _ h => h, fun _ h => h, fun _ h => h, fun _ h => h,
      fun _ h => h, upsert_keys_mono _ _ _, fun _ h => h, fun _ h => h,
      fun _ h => h, fun _ h => h, mergeEdge_mono _ _⟩
  · exact keysLE_refl _

theorem foldl_keysLE {β : Type} (step : β → GraphState → GraphState)
    (hmono : ∀ b st, KeysLE (keysOf st) (keysOf (step b st))) :
    ∀ (l : List β) (st : GraphState),
      KeysLE (keysOf st) (keysOf (l.foldl (fun acc b => step b acc) st)) := by
  intro l
  induction l with
  | nil =>
    intro st
    exact keysLE_refl _
  | cons b t ih =>
    intro st
    exact keysLE_trans (hmono b st) (ih (step b st))

theorem load_file_mono (repo : PyStr) (fm : ScanFileEntry) (s : GraphState) :
    KeysLE (keysOf s) (keysOf (load_file repo fm s)) := by
  simp only [load_file]
  have h1 : KeysLE (keysOf s) (keysOf (if hasKey repo s.repos then
      { s with files := upsert fm.full_path ⟨fm.path, fm.meta.lines⟩ s.files
               containsE := mergeEdge (repo, fm.full_path) s.containsE }
    else s)) := by
    split
    · exact ⟨fun _ h => h, upsert_keys_mono _ _ _, fun _ h => h, fun _ h => h,
        fun _ h => h, fun _ h => h, mergeEdge_mono _ _, fun _ h => h,
        fun _ h => h, fun _ h => h, fun _ h => h⟩
    · exact keysLE_refl _
  refine keysLE_trans h1 (keysLE_trans
    (foldl_keysLE _ (fun f st => load_function_mono fm.full_path f st) _ _)
    (keysLE_trans
      (foldl_keysLE _ (fun c st => load_class_mono fm.full_path c st) _ _)
      (foldl_keysLE _ (fun i st => load_import_mono fm.full_path i st) _ _)))

/-! ### Everything the loader writes is present afterwards -/

/-- All identities `_load_file` writes for one file entry. -/
def FileKeysLoaded (repo : PyStr) (fm : ScanFileEntry) (g : GraphKeys) : Prop :=
  fm.full_path ∈ g.fileKeys ∧
  (repo, fm.full_path) ∈ g.containsE ∧
  (∀ f ∈ fm.meta.functions,
    funcId fm.full_path f ∈ g.funcKeys ∧
    (fm.full_path, funcId fm.full_path f) ∈ g.definesFnE) ∧
  (∀ c ∈ fm.meta.classes,
    classId fm.full_path c ∈ g.classKeys ∧
    (fm.full_path, classId fm.full_path c) ∈ g.definesClsE) ∧
  (∀ i ∈ fm.meta.imports,
    i ∈ g.moduleKeys ∧ (fm.full_path, i) ∈ g.importsE)

/-- All identities `load_repository` writes for one metadata document. -/
def RepoKeysLoaded (m : ScanResult) (g : GraphKeys) : Prop :=
  m.name ∈ g.repoKeys ∧
  (∀ fm ∈ m.files, FileKeysLoaded m.name fm g) ∧
  (∀ cm ∈ m.commits, cm.sha ∈ g.commitKeys ∧ (m.name, cm.sha) ∈ g.hasCommitE)

theorem fileKeysLoaded_mono {g g' : GraphKeys} (h : KeysLE g g')
    (repo : PyStr) (fm : ScanFileEntry) :
    FileKeysLoaded repo fm g → FileKeysLoaded repo fm g' := by
  rintro ⟨h1, h2, h3, h4, h5⟩
  exact ⟨h.file h1, h.ce h2,
    fun f hf => ⟨h.func (h3 f hf).1, h.fe (h3 f hf).2⟩,
    fun c hc => ⟨h.cls (h4 c hc).1, h.cle (h4 c hc).2⟩,
    fun i hi => ⟨h.modK (h5 i hi).1, h.ie (h5 i hi).2⟩⟩

theorem repoKeysLoaded_mono {g g' : GraphKeys} (h : KeysLE g g')
    (m : ScanResult) : RepoKeysLoaded m g → RepoKeysLoaded m g' := by
  rintro ⟨h1, h2, h3⟩
  exact ⟨h.repo h1, fun fm hfm => fileKeysLoaded_mono h m.name fm (h2 fm hfm),
    fun cm hcm => ⟨h.commit (h3 cm hcm).1, h.hce (h3 cm hcm).2⟩⟩

theorem foldl_est {β : Type} (step : β → GraphState → GraphState)
    (P : β → GraphKeys → Prop) (Inv : GraphKeys → Prop)
    (hPmono : ∀ b g g', KeysLE g g' → P b g → P b g')
    (hInvmono : ∀ g g', KeysLE g g' → Inv g → Inv g')
    (hstepmono : ∀ b st, KeysLE (keysOf st) (keysOf (step b st)))
    (hest : ∀ b st, Inv (keysOf st) → P b (keysOf (step b st))) :
    ∀ (l : List β) (st : GraphState), Inv (keysOf st) →
      ∀ b ∈ l, P b (keysOf (l.foldl (fun acc x => step x acc) st)) := by
  intro l
  induction l with
  | nil =>
    intro st _ b hb
    exact absurd hb (List.not_mem_nil b)
  | cons x t ih =>
    intro st hInv b hb
    rcases List.mem_cons.mp hb with rfl | hb
    · exact hPmono b _ _ (foldl_keysLE step hstepmono t (step b st)) (hest b st hInv)
    · exact ih (step x st) (hInvmono _ _ (hstepmono x st) hInv) b hb

theorem load_function_est (fp : PyStr) (f : FuncEntry) (s : GraphState)
    (h : fp ∈ (keysOf s).fileKeys) :
    funcId fp f ∈ (keysOf (load_function fp f s)).funcKeys ∧
    (fp, funcId fp f) ∈ (keysOf (load_function fp f s)).definesFnE := by
  rw [load_function, if_pos ((hasKey_iff fp s.files).mpr h)]
  exact ⟨upsert_keys_mem _ _ _, mergeEdge_mem _ _⟩

theorem load_class_est (fp : PyStr) (c : ClassEntry) (s : GraphState)
    (h : fp ∈ (keysOf s).fileKeys) :
    classId fp c ∈ (keysOf (load_class fp c s)).classKeys ∧
    (fp, classId fp c) ∈ (keysOf (load_class fp c s)).definesClsE := by
  rw [load_class, if_pos ((hasKey_iff fp s.files).mpr h)]
  exact ⟨upsert_keys_mem _ _ _, mergeEdge_mem _ _⟩

theorem load_import_est (fp imp : PyStr) (s : GraphState)
    (h : fp ∈ (keysOf s).fileKeys) :
    imp ∈ (keysOf (load_import fp imp s)).moduleKeys ∧
    (fp, imp) ∈ (keysOf (load_import fp imp s)).importsE := by
  rw [load_import, if_pos ((hasKey_iff fp s.files).mpr h)]
  exact ⟨mergeName_mem _ _, mergeEdge_mem _ _⟩

theorem load_commit_est (repo : PyStr) (cm : CommitMeta) (s : GraphState)
    (h : repo ∈ (keysOf s).repoKeys) :
    cm.sha ∈ (keysOf (load_commit repo cm s)).commitKeys ∧
    (repo, cm.sha) ∈ (keysOf (load_commit repo cm s)).hasCommitE := by
  rw [load_commit, if_pos ((hasKey_iff repo s.repos).mpr h)]
  exact ⟨upsert_keys_mem _ _ _, mergeEdge_mem _ _⟩

theorem load_file_est (repo : PyStr) (fm : ScanFileEntry) (s : GraphState)
    (h : repo ∈ (keysOf s).repoKeys) :
    FileKeysLoaded repo fm (keysOf (load_file repo fm s)) := by
  simp only [load_file, if_pos ((hasKey_iff repo s.repos).mpr h)]
  set t1 : GraphState :=
    { s with files := upsert fm.full_path ⟨fm.path, fm.meta.lines⟩ s.files
             containsE := mergeEdge (repo, fm.full_path) s.containsE } with ht1
  set t2 : GraphState :=
    fm.meta.functions.foldl (fun st f => load_function fm.full_path f st) t1
    with ht2
  set t3 : GraphState :=
    fm.meta.classes.foldl (fun st c => load_class fm.full_path c st) t2 with ht3
  set t4 : GraphState :=
    fm.meta.imports.foldl (fun st i => load_import fm.full_path i st) t3 with ht4
  have m12 : KeysLE (keysOf t1) (keysOf t2) :=
    foldl_keysLE _ (fun f st => load_function_mono fm.full_path f st) _ _
  have m23 : KeysLE (keysOf t2) (keysOf t3) :=
    foldl_keysLE _ (fun c st => load_class_mono fm.full_path c st) _ _
  have m34 : KeysLE (keysOf t3) (keysOf t4) :=
    foldl_keysLE _ (fun i st => load_import_mono fm.full_path i st) _ _
  have m14 : KeysLE (keysOf t1) (keysOf t4) := keysLE_trans m12 (keysLE_trans m23 m34)
  have hfile1 : fm.full_path ∈ (keysOf t1).fileKeys := upsert_keys_mem _ _ _
  have hce1 : (repo, fm.full_path) ∈ (keysOf t1).containsE := mergeEdge_mem _ _
  have hfns : ∀ f ∈ fm.meta.functions,
      funcId fm.full_path f ∈ (keysOf t2).funcKeys ∧
      (fm.full_path, funcId fm.full_path f) ∈ (keysOf t2).definesFnE := by
    refine foldl_est _ (fun f g => funcId fm.full_path f ∈ g.funcKeys ∧
        (fm.full_path, funcId fm.full_path f) ∈ g.definesFnE)
      (fun g => fm.full_path ∈ g.fileKeys)
      (fun f _ _ hk hp => ⟨hk.func hp.1, hk.fe hp.2⟩)
      (fun _ _ hk hm => hk.file hm)
      (fun f st => load_function_mono fm.full_path f st)
      (fun f st hm => load_function_est fm.full_path f st hm)
      fm.meta.functions t1 hfile1
  have hcls : ∀ c ∈ fm.meta.classes,
      classId fm.full_path c ∈ (keysOf t3).classKeys ∧
      (fm.full_path, classId fm.full_path c) ∈ (keysOf t3).definesClsE := by
    refine foldl_est _ (fun c g => classId fm.full_path c ∈ g.classKeys ∧
        (fm.full_path, classId fm.full_path c) ∈ g.definesClsE)
      (fun g => fm.full_path ∈ g.fileKeys)
      (fun c _ _ hk hp => ⟨hk.cls hp.1, hk.cle hp.2⟩)
      (fun _ _ hk hm => hk.file hm)
      (fun c st => load_class_mono fm.full_path c st)
      (fun c st hm => load_class_est fm.full_path c st hm)
      fm.meta.classes t2 (m12.file hfile1)
  have himps : ∀ i ∈ fm.meta.imports,
      i ∈ (keysOf t4).moduleKeys ∧ (fm.full_path, i) ∈ (keysOf t4).importsE := by
    refine foldl_est _ (fun i g => i ∈ g.moduleKeys ∧
        (fm.full_path, i) ∈ g.importsE)
      (fun g => fm.full_path ∈ g.fileKeys)
      (fun i _ _ hk hp => ⟨hk.modK hp.1, hk.ie hp.2⟩)
      (fun _ _ hk hm => hk.file hm)
      (fun i st => load_import_mono fm.full_path i st)
      (fun i st hm => load_import_est fm.full_path i st hm)
      fm.meta.imports t3 (m23.file (m12.file hfile1))
  exact ⟨m14.file hfile1, m14.ce hce1,
    fun f hf => ⟨(keysLE_trans m23 m34).func (hfns f hf).1,
      (keysLE_trans m23 m34).fe (hfns f hf).2⟩,
    fun c hc => ⟨m34.cls (hcls c hc).1, m34.cle (hcls c hc).2⟩,
    himps⟩

theorem load_repository_est (m : ScanResult) (s : GraphState) :
    RepoKeysLoaded m (keysOf (load_repository m s)) := by
  simp only [load_repository]
  set rpp : RepoProps :=
    ⟨m.path, m.total_files, m.total_functions, m.total_classes⟩ with hrpp
  set t1 : GraphState := { s with repos := upsert m.name rpp s.repos } with ht1
  set t2 : GraphState := m.files.foldl (fun st fm => load_file m.name fm st) t1
    with ht2
  set t3 : GraphState := m.commits.foldl (fun st cm => load_commit m.name cm st) t2
    with ht3
  have m12 : KeysLE (keysOf t1) (keysOf t2) :=
    foldl_keysLE _ (fun fm st => load_file_mono m.name fm st) _ _
  have m23 : KeysLE (keysOf t2) (keysOf t3) :=
    foldl_keysLE _ (fun cm st => load_commit_mono m.name cm st) _ _
  have hrepo1 : m.name ∈ (keysOf t1).repoKeys := upsert_keys_mem _ _ _
  have hfiles : ∀ fm ∈ m.files, FileKeysLoaded m.name fm (keysOf t2) := by
    refine foldl_est _ (fun fm g => FileKeysLoaded m.name fm g)
      (fun g => m.name ∈ g.repoKeys)
      (fun fm _ _ hk => fileKeysLoaded_mono hk m.name fm)
      (fun _ _ hk hm => hk.repo hm)
      (fun fm st => load_file_mono m.name fm st)
      (fun fm st hm => load_file_est m.name fm st hm)
      m.files t1 hrepo1
  have hcommits : ∀ cm ∈ m.commits,
      cm.sha ∈ (keysOf t3).commitKeys ∧ (m.name, cm.sha) ∈ (keysOf t3).hasCommitE := by
    refine foldl_est _ (fun cm g => cm.sha ∈ g.commitKeys ∧
        (m.name, cm.sha) ∈ g.hasCommitE)
      (fun g => m.name ∈ g.repoKeys)
      ?_ ?_
      (fun cm st => load_commit_mono m.name cm st)
      (fun cm st hm => load_commit_est m.name cm st hm)
      m.commits t2 (m12.repo hrepo1)
    · intro cm g g' hk hp
      exact ⟨hk.commit hp.1, hk.hce hp.2⟩
    · intro g g' hk hm
      exact hk.repo hm
  exact ⟨m23.repo (m12.repo hrepo1),
    fun fm hfm => fileKeysLoaded_mono m23 m.name fm (hfiles fm hfm),
    hcommits⟩

/-! ### Replaying a load over already-present identities changes no keys -/

theorem load_function_keys_eq (fp : PyStr) (f : FuncEntry) (s : GraphState)
    (hfile : fp ∈ (keysOf s).fileKeys)
    (hfn : funcId fp f ∈ (keysOf s).funcKeys)
    (he : (fp, funcId fp f) ∈ (keysOf s).definesFnE) :
    keysOf (load_function fp f s) = keysOf s := by
  have he' : (fp, funcId fp f) ∈ s.definesFnE := he
  rw [load_function, if_pos ((hasKey_iff fp s.files).mpr hfile)]
  simp only [keysOf]
  rw [upsert_keys_of_mem _ _ _ hfn, mergeEdge_of_mem _ _ he']

theorem load_class_keys_eq (fp : PyStr) (c : ClassEntry) (s : GraphState)
    (hfile : fp ∈ (keysOf s).fileKeys)
    (hc : classId fp c ∈ (keysOf s).classKeys)
    (he : (fp, classId fp c) ∈ (keysOf s).definesClsE) :
    keysOf (load_class fp c s) = keysOf s := by
  have he' : (fp, classId fp c) ∈ s.definesClsE := he
  rw [load_class, if_pos ((hasKey_iff fp s.files).mpr hfile)]
  simp only [keysOf]
  rw [upsert_keys_of_mem _ _ _ hc, mergeEdge_of_mem _ _ he']

theorem load_import_keys_eq (fp imp : PyStr) (s : GraphState)
    (hfile : fp ∈ (keysOf s).fileKeys)
    (hm : imp ∈ (keysOf s).moduleKeys)
    (he : (fp, imp) ∈ (keysOf s).importsE) :
    keysOf (load_import fp imp s) = keysOf s := by
  have hm' : imp ∈ s.modules := hm
  have he' : (fp, imp) ∈ s.importsE := he
  rw [load_import, if_pos ((hasKey_iff fp s.files).mpr hfile)]
  simp only [keysOf]
  rw [mergeName_of_mem _ _ hm', mergeEdge_of_mem _ _ he']

theorem load_commit_keys_eq (repo : PyStr) (cm : CommitMeta) (s : GraphState)
    (hrepo : repo ∈ (keysOf s).repoKeys)
    (hc : cm.sha ∈ (keysOf s).commitKeys)
    (he : (repo, cm.sha) ∈ (keysOf s).hasCommitE) :
    keysOf (load_commit repo cm s) = keysOf s := by
  have he' : (repo, cm.sha) ∈ s.hasCommitE := he
  rw [load_commit, if_pos ((hasKey_iff repo s.repos).mpr hrepo)]
  simp only [keysOf]
  rw [upsert_keys_of_mem _ _ _ hc, mergeEdge_of_mem _ _ he']

theorem foldl_keys_eq {β : Type} (step : β → GraphState → GraphState)
    (P : β → GraphKeys → Prop)
    (hstep : ∀ b st, P b (keysOf st) → keysOf (step b st) = keysOf st) :
    ∀ (l : List β) (st : GraphState), (∀ b ∈ l, P b (keysOf st)) →
      keysOf (l.foldl (fun acc x => step x acc) st) = keysOf st := by
  intro l
  induction l with
  | nil =>
    intro st _
    rfl
  | cons x t ih =>
    intro st hP
    have hx : keysOf (step x st) = keysOf st :=
      hstep x st (hP x (List.mem_cons_self x t))
    have ht : keysOf (t.foldl (fun acc y => step y acc) (step x st)) =
        keysOf (step x st) := by
      refine ih (step x st) ?_
      intro b hb
      rw [hx]
      exact hP b (List.mem_cons_of_mem x hb)
    simp only [List.foldl_cons]
    rw [ht, hx]

theorem load_file_keys_eq (repo : PyStr) (fm : ScanFileEntry) (s : GraphState)
    (hrepo : repo ∈ (keysOf s).repoKeys)
    (hload : FileKeysLoaded repo fm (keysOf s)) :
    keysOf (load_file repo fm s) = keysOf s := by
  obtain ⟨hfile, hce, hfns, hcls, himps⟩ := hload
  simp only [load_file, if_pos ((hasKey_iff repo s.repos).mpr hrepo)]
  set t1 : GraphState :=
    { s with files := upsert fm.full_path ⟨fm.path, fm.meta.lines⟩ s.files
             containsE := mergeEdge (repo, fm.full_path) s.containsE } with ht1
  have hce' : (repo, fm.full_path) ∈ s.containsE := hce
  have h1 : keysOf t1 = keysOf s := by
    rw [ht1]
    simp only [keysOf]
    rw [upsert_keys_of_mem _ _ _ hfile, mergeEdge_of_mem _ _ hce']
  have h2 : keysOf (fm.meta.functions.foldl
      (fun st f => load_function fm.full_path f st) t1) = keysOf s := by
    rw [foldl_keys_eq (fun f st => load_function fm.full_path f st)
      (fun f g => fm.full_path ∈ g.fileKeys ∧
        funcId fm.full_path f ∈ g.funcKeys ∧
        (fm.full_path, funcId fm.full_path f) ∈ g.definesFnE)
      (fun f st hp => load_function_keys_eq fm.full_path f st hp.1 hp.2.1 hp.2.2)
      fm.meta.functions t1 ?_, h1]
    intro f hf
    rw [h1]
    exact ⟨hfile, (hfns f hf).1, (hfns f hf).2⟩
  have h3 : keysOf (fm.meta.classes.foldl
      (fun st c => load_class fm.full_path c st)
      (fm.meta.functions.foldl (fun st f => load_function fm.full_path f st) t1)) =
      keysOf s := by
    rw [foldl_keys_eq (fun c st => load_class fm.full_path c st)
      (fun c g => fm.full_path ∈ g.fileKeys ∧
        classId fm.full_path c ∈ g.classKeys ∧
        (fm.full_path, classId fm.full_path c) ∈ g.definesClsE)
      (fun c st hp => load_class_keys_eq fm.full_path c st hp.1 hp.2.1 hp.2.2)
      fm.meta.classes _ ?_, h2]
    intro c hc
    rw [h2]
    exact ⟨hfile, (hcls c hc).1, (hcls c hc).2⟩
  rw [foldl_keys_eq (fun i st => load_import fm.full_path i st)
    (fun i g => fm.full_path ∈ g.fileKeys ∧ i ∈ g.moduleKeys ∧
      (fm.full_path, i) ∈ g.importsE)
    (fun i st hp => load_import_keys_eq fm.full_path i st hp.1 hp.2.1 hp.2.2)
    fm.meta.imports _ ?_, h3]
  intro i hi
  rw [h3]
  exact ⟨hfile, (himps i hi).1, (himps i hi).2⟩

theorem load_repository_keys_eq (m : ScanResult) (s : GraphState)
    (h : RepoKeysLoaded m (keysOf s)) :
    keysOf (load_repository m s) = keysOf s := by
  obtain ⟨hrepo, hfiles, hcommits⟩ := h
  simp only [load_repository]
  set rpp : RepoProps :=
    ⟨m.path, m.total_files, m.total_functions, m.total_classes⟩ with hrpp
  set t1 : GraphState := { s with repos := upsert m.name rpp s.repos } with ht1
  have h1 : keysOf t1 = keysOf s := by
    rw [ht1]
    simp only [keysOf]
    rw [upsert_keys_of_mem _ _ _ hrepo]
  have h2 : keysOf (m.files.foldl (fun st fm => load_file m.name fm st) t1) =
      keysOf s := by
    rw [foldl_keys_eq (fun fm st => load_file m.name fm st)
      (fun fm g => m.name ∈ g.repoKeys ∧ FileKeysLoaded m.name fm g)
      (fun fm st hp => load_file_keys_eq m.name fm st hp.1 hp.2)
      m.files t1 ?_, h1]
    intro fm hfm
    rw [h1]
    exact ⟨hrepo, hfiles fm hfm⟩
  rw [foldl_keys_eq (fun cm st => load_commit m.name cm st)
    (fun cm g => m.name ∈ g.repoKeys ∧ cm.sha ∈ g.commitKeys ∧
      (m.name, cm.sha) ∈ g.hasCommitE)
    (fun cm st hp => load_commit_keys_eq m.name cm st hp.1 hp.2.1 hp.2.2)
    m.commits _ ?_, h2]
  intro cm hcm
  rw [h2]
  exact ⟨hrepo, (hcommits cm hcm).1, (hcommits cm hcm).2⟩

theorem nodeCount_keys (s : GraphState) :
    nodeCount s = (keysOf s).repoKeys.length + (keysOf s).fileKeys.length +
      (keysOf s).funcKeys.length + (keysOf s).classKeys.length +
      (keysOf s).moduleKeys.length + (keysOf s).commitKeys.length := by
  simp [nodeCount, keysOf]

theorem edgeCount_keys (s : GraphState) :
    edgeCount s = (keysOf s).containsE.length + (keysOf s).definesFnE.length +
      (keysOf s).definesClsE.length + (keysOf s).importsE.length +
      (keysOf s).hasCommitE.length := by
  simp [edgeCount, keysOf]

/-- Claim C5: loading the same Repository Metadata document twice in
succession leaves the graph store with exactly the same identities —
the same node keys per label, the same edges, hence the same node and
edge counts — as loading it once: every write is a `MERGE` (upsert)
keyed on the entity's unique key (repository name, file absolute path,
function/class composite id, module name, commit sha), so the second
load finds every key present and inserts nothing. -/
theorem load_repository_idempotent (m : ScanResult) (s : GraphState) :
    keysOf (load_repository m (load_repository m s)) =
      keysOf (load_repository m s) ∧
    nodeCount (load_repository m (load_repository m s)) =
      nodeCount (load_repository m s) ∧
    edgeCount (load_repository m (load_repository m s)) =
      edgeCount (load_repository m s) := by
  have hkeys : keysOf (load_repository m (load_repository m s)) =
      keysOf (load_repository m s) :=
    load_repository_keys_eq m (load_repository m s) (load_repository_est m s)
  refine ⟨hkeys, ?_, ?_⟩
  · rw [nodeCount_keys, nodeCount_keys, hkeys]
  · rw [edgeCount_keys, edgeCount_keys, hkeys]

/-! ## Dynamic graph query tool — `DynamicGraphQueryTool`
(core/graph_query_tool.py)

The LLM and the Neo4j driver are external: the LLM is an optional
generation function (absent when initialization failed), the driver a
function from a query string to either an error or a record list.  Both
tool methods catch every exception and return a message string, so the
embedding is a total function into `PyStr`. -/

/-- The whitespace class of Python's `str.strip` and of `\s` in the
cleaning regexes (ASCII part). -/
def pyIsSpace (c : Char) : Bool :=
  c = ' ' || c = '\t' || c = '\n' || c = '\r' || c = '\x0b' || c = '\x0c'

def pyStripLeft (s : PyStr) : PyStr := s.dropWhile pyIsSpace

def pyStripRight (s : PyStr) : PyStr := (s.reverse.dropWhile pyIsSpace).reverse

/-- Python `s.strip()`. -/
def pyStrip (s : PyStr) : PyStr := pyStripRight (pyStripLeft s)

/-- `DynamicGraphQueryTool._clean_query`: strip a leading
```` ``` ````/```` ```cypher ```` fence with following whitespace, strip a
trailing ```` ``` ```` fence with preceding whitespace, then strip. -/
def clean_query (q : PyStr) : PyStr :=
  let q1 :=
    if "```".data.isPrefixOf q then
      let r := q.drop 3
      let r2 := if "cypher".data.isPrefixOf r then r.drop 6 else r
      r2.dropWhile pyIsSpace
    else q
  let q2 :=
    if "```".data.isSuffixOf q1 then pyStripRight (q1.take (q1.length - 3))
    else q1
  pyStrip q2

/-- A value in a Neo4j result record: a list value (bracket-rendered),
or anything else via Python `str()` (dict values also go through
`str()`, so they are covered by `prim`). -/
inductive PyVal where
  | prim (rendered : PyStr)
  | vlist (elems : List PyStr)
  deriving DecidableEq

/-- `", ".join(...)`. -/
def joinCommaSp : List PyStr → PyStr
  | [] => []
  | [x] => x
  | x :: y :: rest => x ++ ", ".data ++ joinCommaSp (y :: rest)

/-- The per-value rendering of `_format_results`. -/
def formatValue : PyVal → PyStr
  | .prim r => r
  | .vlist es => '[' :: (joinCommaSp es ++ [']'])

/-- One Neo4j result record: column name to value. -/
abbrev NeoRecord := List (PyStr × PyVal)

/-- The structured content of `_format_results`: the no-results
message, or the total, the rendered blocks (one per displayed record)
and the optional count of suppressed results. -/
inductive FormatOutput where
  | noResults
  | results (total : Nat) (blocks : List (List (PyStr × PyStr)))
      (more : Option Nat)
  deriving DecidableEq

def renderRecord (r : NeoRecord) : List (PyStr × PyStr) :=
  r.map (fun kv => (kv.1, formatValue kv.2))

/-- `DynamicGraphQueryTool._format_results(results, max_results)`:
empty input yields the no-results message; otherwise the first
`max_results` records are rendered and a "N more results" suffix is
recorded exactly when the input is longer than `max_results`. -/
def format_results (results : List NeoRecord) (maxResults : Nat) : FormatOutput :=
  if results = [] then .noResults
  else
    .results results.length ((results.take maxResults).map renderRecord)
      (if maxResults < results.length then some (results.length - maxResults)
       else none)

def natStr (n : Nat) : PyStr := (toString n).data

def renderBlock (i : Nat) (b : List (PyStr × PyStr)) : PyStr :=
  "\nResult ".data ++ natStr i ++ ":\n".data ++
    (b.map (fun kv => "  ".data ++ kv.1 ++ ": ".data ++ kv.2 ++ ['\n'])).flatten

/-- The textual rendering of `_format_results`. -/
def renderFormat (maxResults : Nat) : FormatOutput → PyStr
  | .noResults => "No results found.".data
  | .results total blocks more =>
    "Query returned ".data ++ natStr total ++ " result(s):\n".data ++
      List.replicate 80 '=' ++ ['\n'] ++
      ((List.enumFrom 1 blocks).map (fun ib => renderBlock ib.1 ib.2)).flatten ++
      (match more with
       | some n => "\n... and ".data ++ natStr n ++
           " more results (limited to ".data ++ natStr maxResults ++ [')']
       | none => [])

/-- Message constants of the tool (each `return f"..."` site). -/
def invalidQueryMsg : PyStr :=
  "Error: Invalid query. Query must be a non-empty string.".data

def noResultsMsg : PyStr :=
  "Query executed successfully but returned no results.".data

def execErrorMsg (e : PyStr) : PyStr := "Error executing query: ".data ++ e

def llmNotInitMsg : PyStr :=
  "Error: LLM not initialized. Cannot generate Cypher queries.".data

def genErrorMsg (e : PyStr) : PyStr :=
  "Error generating and executing query: ".data ++ e

/-- `DynamicGraphQueryTool.execute_query(cypher_query, max_results)`.
A non-string argument is modelled as `none`; the emptiness test runs
before cleaning, exceptions from the driver surface as the error
message, and an empty record list yields the no-results message. -/
def execute_query (run : PyStr → Except PyStr (List NeoRecord))
    (input : Option PyStr) (maxResults : Nat) : PyStr :=
  match input with
  | none => invalidQueryMsg
  | some q =>
    if q = [] then invalidQueryMsg
    else
      match run (clean_query q) with
      | .error e => execErrorMsg e
      | .ok results =>
        if results = [] then noResultsMsg
        else renderFormat maxResults (format_results results maxResults)

/-- The fixed part of the generation prompt (the schema text is a fixed
constant whose exact wording no claim depends on; a representative
fragment stands for it). -/
def schemaInfo : PyStr :=
  "Neo4j Graph Database Schema: Repository, File, Function, Class, Module, Commit; CONTAINS, DEFINES, CALLS, IMPORTS, HAS_COMMIT.".data

/-- The prompt `query_from_natural_language` builds around the
question. -/
def promptFor (question : PyStr) : PyStr :=
  "You are a Neo4j Cypher query expert. SCHEMA: ".data ++ schemaInfo ++
    " USER QUESTION: ".data ++ question ++
    " INSTRUCTIONS: Generate ONLY a valid Cypher query. Cypher query:".data

/-- `DynamicGraphQueryTool.query_from_natural_language(question,
max_results)`: fail fast when the LLM is absent, catch generation
errors into a message, otherwise strip and clean the generated text and
hand it to `execute_query` (which cleans once more). -/
def query_from_natural_language (llm : Option (PyStr → Except PyStr PyStr))
    (run : PyStr → Except PyStr (List NeoRecord)) (question : PyStr)
    (maxResults : Nat) : PyStr :=
  match llm with
  | none => llmNotInitMsg
  | some gen =>
    match gen (promptFor question) with
    | .error e => genErrorMsg e
    | .ok resp => execute_query run (some (clean_query (pyStrip resp))) maxResults

/-- Claim C7: `_format_results` on 150 records with `max_results = 100`
renders exactly the first 100 records as blocks plus a "50 more
results" suffix; in general a longer-than-max input renders exactly
`max_results` blocks plus the suffix with the exact overflow count, a
non-empty input within the bound renders every record with no suffix,
and an empty input yields the explicit no-results message. -/
theorem format_results_truncation :
    (∀ results : List NeoRecord, results.length = 150 →
      format_results results 100 =
        FormatOutput.results 150 ((results.take 100).map renderRecord)
          (some 50) ∧
      ((results.take 100).map renderRecord).length = 100) ∧
    (∀ (results : List NeoRecord) (maxR : Nat), maxR < results.length →
      format_results results maxR =
        FormatOutput.results results.length
          ((results.take maxR).map renderRecord)
          (some (results.length - maxR)) ∧
      ((results.take maxR).map renderRecord).length = maxR) ∧
    (∀ (results : List NeoRecord) (maxR : Nat), results ≠ [] →
      results.length ≤ maxR →
      format_results results maxR =
        FormatOutput.results results.length (results.map renderRecord) none) ∧
    (∀ maxR : Nat, format_results [] maxR = FormatOutput.noResults) := by
  have hgen : ∀ (results : List NeoRecord) (maxR : Nat), maxR < results.length →
      format_results results maxR =
        FormatOutput.results results.length
          ((results.take maxR).map renderRecord)
          (some (results.length - maxR)) ∧
      ((results.take maxR).map renderRecord).length = maxR := by
    intro results maxR hlt
    have hne : results ≠ [] := by
      intro h
      rw [h] at hlt
      simp at hlt
    constructor
    · rw [format_results, if_neg hne, if_pos hlt]
    · rw [List.length_map, List.length_take]
      omega
  refine ⟨?_, hgen, ?_, ?_⟩
  · intro results h150
    have := hgen results 100 (by omega)
    rw [h150] at this
    exact this
  · intro results maxR hne hle
    rw [format_results, if_neg hne, if_neg (by omega),
      List.take_of_length_le hle]
  · intro maxR
    rfl

/-- Witness record for C7. -/
def c7Rec : NeoRecord := [("name".data, PyVal.prim "foo".data)]

theorem format_results_truncation_witness :
    (List.replicate 150 c7Rec).length = 150 ∧
    (format_results (List.replicate 150 c7Rec) 100 =
      FormatOutput.results 150
        (((List.replicate 150 c7Rec).take 100).map renderRecord) (some 50) ∧
     (((List.replicate 150 c7Rec).take 100).map renderRecord).length = 100) :=
  ⟨by simp, format_results_truncation.1 (List.replicate 150 c7Rec) (by simp)⟩

/-- Claim C8: both query-tool entry points are total functions into
message strings (no exception propagates by construction); a non-string
or empty query is rejected with the invalid-query message without the
driver ever being consulted (the result is the same constant for every
driver); a driver failure becomes the textual error message; an empty
record list becomes the explicit non-empty no-results message; a
missing LLM and a generation failure become their textual messages; and
a successful generation delegates to `execute_query` on the cleaned
text. -/
theorem query_tool_total :
    (∀ (run : PyStr → Except PyStr (List NeoRecord)) (maxR : Nat),
      execute_query run none maxR = invalidQueryMsg) ∧
    (∀ (run : PyStr → Except PyStr (List NeoRecord)) (maxR : Nat),
      execute_query run (some []) maxR = invalidQueryMsg) ∧
    (∀ (run : PyStr → Except PyStr (List NeoRecord)) (q : PyStr) (maxR : Nat)
      (e : PyStr), q ≠ [] → run (clean_query q) = .error e →
      execute_query run (some q) maxR = execErrorMsg e) ∧
    (∀ (run : PyStr → Except PyStr (List NeoRecord)) (q : PyStr) (maxR : Nat),
      q ≠ [] → run (clean_query q) = .ok [] →
      execute_query run (some q) maxR = noResultsMsg) ∧
    noResultsMsg ≠ [] ∧
    (∀ (run : PyStr → Except PyStr (List NeoRecord)) (question : PyStr)
      (maxR : Nat),
      query_from_natural_language none run question maxR = llmNotInitMsg) ∧
    (∀ (gen : PyStr → Except PyStr PyStr)
      (run : PyStr → Except PyStr (List NeoRecord)) (question : PyStr)
      (maxR : Nat) (e : PyStr), gen (promptFor question) = .error e →
      query_from_natural_language (some gen) run question maxR = genErrorMsg e) ∧
    (∀ (gen : PyStr → Except PyStr PyStr)
      (run : PyStr → Except PyStr (List NeoRecord)) (question : PyStr)
      (maxR : Nat) (resp : PyStr), gen (promptFor question) = .ok resp →
      query_from_natural_language (some gen) run question maxR =
        execute_query run (some (clean_query (pyStrip resp))) maxR) := by
  refine ⟨fun run maxR => rfl, fun run maxR => by simp [execute_query],
    ?_, ?_, by decide, fun run question maxR => rfl, ?_, ?_⟩
  · intro run q maxR e hq hrun
    rw [execute_query, if_neg hq, hrun]
  · intro run q maxR hq hrun
    rw [execute_query, if_neg hq, hrun]
    rfl
  · intro gen run question maxR e hgen
    rw [query_from_natural_language, hgen]
  · intro gen run question maxR resp hgen
    rw [query_from_natural_language, hgen]

/-- Concrete failing driver for the C8 witness. -/
def c8RunErr : PyStr → Except PyStr (List NeoRecord) :=
  fun _ => Except.error "boom".data

/-- Concrete empty-result driver for the C8 witness. -/
def c8RunEmpty : PyStr → Except PyStr (List NeoRecord) :=
  fun _ => Except.ok []

/-- Concrete generator for the C8 witness. -/
def c8Gen : PyStr → Except PyStr PyStr :=
  fun _ => Except.ok "MATCH (n) RETURN n".data

theorem query_tool_total_witness :
    (("MATCH (n) RETURN n".data : PyStr) ≠ [] ∧
     c8RunErr (clean_query "MATCH (n) RETURN n".data) = .error "boom".data ∧
     execute_query c8RunErr (some "MATCH (n) RETURN n".data) 100 =
       execErrorMsg "boom".data) ∧
    (c8RunEmpty (clean_query "MATCH (n) RETURN n".data) = .ok [] ∧
     execute_query c8RunEmpty (some "MATCH (n) RETURN n".data) 100 =
       noResultsMsg) ∧
    (c8Gen (promptFor "list files".data) = .ok "MATCH (n) RETURN n".data ∧
     query_from_natural_language (some c8Gen) c8RunEmpty "list files".data 100 =
       execute_query c8RunEmpty
         (some (clean_query (pyStrip "MATCH (n) RETURN n".data))) 100) :=
  ⟨⟨by decide, rfl,
     query_tool_total.2.2.1 c8RunErr "MATCH (n) RETURN n".data 100 "boom".data
       (by decide) rfl⟩,
   ⟨rfl, query_tool_total.2.2.2.1 c8RunEmpty "MATCH (n) RETURN n".data 100
       (by decide) rfl⟩,
   ⟨rfl, query_tool_total.2.2.2.2.2.2.2 c8Gen c8RunEmpty "list files".data 100
       "MATCH (n) RETURN n".data rfl⟩⟩

/-! ## File explorer — `FileExplorer` (core/file_explorer.py)

Paths are component lists; `Path.resolve()` is modelled as lexical
normalization (drop empty and `.` components, `..` removes the previous
component, and at the root stays at the root, as `resolve` does), and
the filesystem as a finite map from resolved absolute paths to nodes.
`read_file` and `list_directory` run
`full_path.resolve().relative_to((base / repo).resolve())` and return
an access-denied message on `ValueError` — i.e. when the resolved
repository root is not a prefix of the resolved target — *before* any
filesystem access.  `file_exists` performs no such check: it stats the
joined path directly. -/

inductive FsNode where
  | file (content : PyStr)
  | dir
  deriving DecidableEq

/-- One `resolve()` step over a component. -/
def normStep (acc : List PyStr) (p : PyStr) : List PyStr :=
  if p = [] ∨ p = ".".data then acc
  else if p = "..".data then acc.dropLast
  else acc ++ [p]

/-- Lexical `Path.resolve()` on a component list. -/
def normalizePath (parts : List PyStr) : List PyStr :=
  parts.foldl normStep []

/-- The filesystem: resolved absolute path to node. -/
def fsLookup (fs : List (List PyStr × FsNode)) (p : List PyStr) : Option FsNode :=
  (fs.find? (fun e => e.1 = p)).map (fun e => e.2)

/-- Immediate children of a directory: entries one component below it
(the source sorts them for display; order is irrelevant here). -/
def childrenOf (fs : List (List PyStr × FsNode)) (d : List PyStr) :
    List (PyStr × FsNode) :=
  fs.filterMap fun e =>
    match e.1.getLast? with
    | some n => if e.1.dropLast = d then some (n, e.2) else none
    | none => none

/-- The message classes the three path-taking operations return; each
constructor is one `return` site of the source. -/
inductive NavResult where
  | accessDenied
  | fileNotFound
  | notAFile
  | fileContent (text : PyStr)
  | fileTruncated (shown : PyStr) (origLen : Nat)
  | fileExistsInfo (size : Nat)
  | existsButDir
  | fileDoesNotExist
  | dirNotFound
  | notADir
  | listing (entries : List (PyStr × FsNode))
  deriving DecidableEq

/-- `FileExplorer.read_file(repo_name, file_path)`: traversal check
first (access denied without touching the filesystem), then existence
and file checks, then the 10000-character truncation cap. -/
def read_file (fs : List (List PyStr × FsNode)) (base : List PyStr)
    (repoName : PyStr) (fileParts : List PyStr) : NavResult :=
  let root := normalizePath (base ++ [repoName])
  let target := normalizePath (base ++ [repoName] ++ fileParts)
  if root.isPrefixOf target = false then .accessDenied
  else
    match fsLookup fs target with
    | none => .fileNotFound
    | some .dir => .notAFile
    | some (.file content) =>
      if 10000 < content.length then
        .fileTruncated (content.take 10000) content.length
      else .fileContent content

/-- `FileExplorer.file_exists(repo_name, file_path)`: the source has
*no* traversal check here — it stats `base / repo / file_path`
directly. -/
def file_exists (fs : List (List PyStr × FsNode)) (base : List PyStr)
    (repoName : PyStr) (fileParts : List PyStr) : NavResult :=
  let target := normalizePath (base ++ [repoName] ++ fileParts)
  match fsLookup fs target with
  | some (.file content) => .fileExistsInfo content.length
  | some .dir => .existsButDir
  | none => .fileDoesNotExist

/-- `FileExplorer.list_directory(repo_name, dir_path)`: traversal check
first, then directory checks, then the entry listing. -/
def list_directory (fs : List (List PyStr × FsNode)) (base : List PyStr)
    (repoName : PyStr) (dirParts : List PyStr) : NavResult :=
  let root := normalizePath (base ++ [repoName])
  let target := normalizePath (base ++ [repoName] ++ dirParts)
  if root.isPrefixOf target = false then .accessDenied
  else
    match fsLookup fs target with
    | none => .dirNotFound
    | some (.file _) => .notADir
    | some .dir => .listing (childrenOf fs target)

/-- The `/app/data/repos` base of the explorer, as components. -/
def c1Base : List PyStr := ["app".data, "data".data, "repos".data]

/-- A filesystem with a repository directory and `/etc/passwd` outside
it. -/
def c1Fs : List (List PyStr × FsNode) :=
  [((c1Base ++ ["myrepo".data]), FsNode.dir),
   (["etc".data, "passwd".data], FsNode.file "root:x:0:0".data)]

/-- The spec's canonical traversal input, with enough `..` steps to
escape to the filesystem root. -/
def c1Traversal : List PyStr :=
  ["..".data, "..".data, "..".data, "..".data, "etc".data, "passwd".data]

/-- Claim C1, evaluated on the code: the traversal input resolves to
`/etc/passwd`, outside the repository root; `read_file` and
`list_directory` return the access-denied result, but `file_exists` —
which the claim also covers — has no traversal check and stats the file
outside the repository, answering "File exists: ... (10 bytes)" instead
of an access denial.  This contradicts the claim (and §4.6 of the
spec), against the explicit security-check pattern of the sibling
operations — a defect in the code, not in the claim. -/
theorem file_explorer_traversal_bug :
    normalizePath (c1Base ++ ["myrepo".data] ++ c1Traversal) =
      ["etc".data, "passwd".data] ∧
    (normalizePath (c1Base ++ ["myrepo".data])).isPrefixOf
      (normalizePath (c1Base ++ ["myrepo".data] ++ c1Traversal)) = false ∧
    read_file c1Fs c1Base "myrepo".data c1Traversal = NavResult.accessDenied ∧
    list_directory c1Fs c1Base "myrepo".data c1Traversal =
      NavResult.accessDenied ∧
    file_exists c1Fs c1Base "myrepo".data c1Traversal =
      NavResult.fileExistsInfo 10 ∧
    file_exists c1Fs c1Base "myrepo".data c1Traversal ≠
      NavResult.accessDenied := by
  decide

/-! ## Embedding sanitization — `VectorRetriever.get_embeddings` and
`add_documents` (core/retriever.py)

The OpenAI embedding endpoint is a function parameter; the Chroma
collection a list of entries, `collection.add` appending one entry per
document with parallel ids/embeddings/documents/metadatas. -/

/-- First comprehension: `text.strip() if text else " "`. -/
def sanitize1 (t : PyStr) : PyStr := if t = [] then [' '] else pyStrip t

/-- Second comprehension: `text if text else " "`. -/
def sanitize2 (t : PyStr) : PyStr := if t = [] then [' '] else t

/-- `VectorRetriever.get_embeddings(texts)`: the provider receives the
sanitized texts, in order, and returns one vector per input. -/
def get_embeddings {V : Type} (embed : PyStr → V) (texts : List PyStr) :
    List V :=
  ((texts.map sanitize1).map sanitize2).map embed

/-- One document passed to `add_documents`. -/
structure VecDoc where
  id : PyStr
  text : PyStr
  metadata : List (PyStr × PyStr)
  deriving DecidableEq

/-- One entry of the vector collection after `collection.add`. -/
structure VecEntry (V : Type) where
  id : PyStr
  embedding : V
  document : PyStr
  metadata : List (PyStr × PyStr)

/-- `collection.add(ids=…, embeddings=…, documents=…, metadatas=…)`:
zip the parallel arrays into entries. -/
def entryZip {V : Type} :
    List PyStr → List V → List PyStr → List (List (PyStr × PyStr)) →
      List (VecEntry V)
  | i :: is, e :: es, t :: ts, m :: ms => ⟨i, e, t, m⟩ :: entryZip is es ts ms
  | _, _, _, _ => []

/-- One iteration of the batch loop of `add_documents`: embed the
batch's texts and append the entries — the *stored* document is the
original text, the embedding is computed from the sanitized text. -/
def addBatch {V : Type} (embed : PyStr → V) (batch : List VecDoc)
    (col : List (VecEntry V)) : List (VecEntry V) :=
  col ++ entryZip (batch.map (fun d => d.id))
    (get_embeddings embed (batch.map (fun d => d.text)))
    (batch.map (fun d => d.text)) (batch.map (fun d => d.metadata))

/-- `VectorRetriever.add_documents(documents, batch_size)`: process the
documents in slices of `batch_size` (the source's
`range(0, len(documents), batch_size)`; a zero step would raise in
Python and is mapped to a no-op here — the claims use the positive
default 50). -/
def add_documents {V : Type} (embed : PyStr → V) (bSize : Nat)
    (docs : List VecDoc) (col : List (VecEntry V)) : List (VecEntry V) :=
  if bSize = 0 ∨ docs = [] then col
  else add_documents embed bSize (docs.drop bSize)
    (addBatch embed (docs.take bSize) col)
termination_by docs.length
decreasing_by
  rename_i h
  push_neg at h
  rw [List.length_drop]
  have : docs.length ≠ 0 := fun hn => h.2 (List.eq_nil_of_length_eq_zero hn)
  omega

theorem sanitize_eq (t : PyStr) :
    sanitize2 (sanitize1 t) = if pyStrip t = [] then [' '] else pyStrip t := by
  by_cases ht : t = []
  · subst ht
    rfl
  · rw [sanitize1, if_neg ht, sanitize2]

theorem addBatch_eq {V : Type} (embed : PyStr → V) (batch : List VecDoc)
    (col : List (VecEntry V)) :
    addBatch embed batch col = col ++ batch.map (fun d =>
      ⟨d.id, embed (sanitize2 (sanitize1 d.text)), d.text, d.metadata⟩) := by
  rw [addBatch]
  congr 1
  induction batch with
  | nil => rfl
  | cons d ds ih =>
    simp only [List.map_cons, get_embeddings] at ih ⊢
    rw [entryZip, ih]

theorem add_documents_eq {V : Type} (embed : PyStr → V) (bSize : Nat)
    (hb : 0 < bSize) (docs : List VecDoc) (col : List (VecEntry V)) :
    add_documents embed bSize docs col = col ++ docs.map (fun d =>
      ⟨d.id, embed (sanitize2 (sanitize1 d.text)), d.text, d.metadata⟩) := by
  have hgen : ∀ (n : Nat) (ds : List VecDoc), ds.length ≤ n →
      ∀ c : List (VecEntry V), add_documents embed bSize ds c =
        c ++ ds.map (fun d =>
          ⟨d.id, embed (sanitize2 (sanitize1 d.text)), d.text, d.metadata⟩) := by
    intro n
    induction n with
    | zero =>
      intro ds hds c
      have : ds = [] := List.eq_nil_of_length_eq_zero (Nat.le_zero.mp hds)
      subst this
      rw [add_documents]
      simp
    | succ k ih =>
      intro ds hds c
      by_cases hnil : ds = []
      · subst hnil
        rw [add_documents]
        simp
      · rw [add_documents, if_neg (by push_neg; exact ⟨by omega, hnil⟩)]
        rw [ih (ds.drop bSize) (by rw [List.length_drop]; omega)]
        rw [addBatch_eq, List.append_assoc, ← List.map_append,
          List.take_append_drop]
  exact hgen docs.length docs (Nat.le_refl _) col

/-- Claim C10: each text sent to the embedding provider is the original
text stripped of leading and trailing whitespace, with empty or
whitespace-only texts replaced by a single space; `add_documents`
stores the *unstripped* original as the indexed document while its
vector is computed from the sanitized text — so the two can differ
(the witness stores `" x "` with the vector of `"x"`). -/
theorem get_embeddings_sanitizes :
    (∀ t : PyStr, sanitize2 (sanitize1 t) =
      if pyStrip t = [] then [' '] else pyStrip t) ∧
    (∀ (V : Type) (embed : PyStr → V) (texts : List PyStr),
      get_embeddings embed texts = texts.map (fun t =>
        embed (if pyStrip t = [] then [' '] else pyStrip t))) ∧
    (∀ (V : Type) (embed : PyStr → V) (bSize : Nat) (docs : List VecDoc)
      (col : List (VecEntry V)), 0 < bSize →
      add_documents embed bSize docs col = col ++ docs.map (fun d =>
        ⟨d.id, embed (if pyStrip d.text = [] then [' '] else pyStrip d.text),
          d.text, d.metadata⟩)) := by
  refine ⟨sanitize_eq, ?_, ?_⟩
  · intro V embed texts
    rw [get_embeddings, List.map_map, List.map_map]
    refine List.map_congr_left ?_
    intro t _
    simp only [Function.comp_apply]
    rw [sanitize_eq]
  · intro V embed bSize docs col hb
    rw [add_documents_eq embed bSize hb docs col]
    congr 1
    refine List.map_congr_left ?_
    intro d _
    rw [sanitize_eq]

/-- Witness document for C10: stored text `" x "`, embedded text
`"x"`. -/
def c10Doc : VecDoc := ⟨"id1".data, " x ".data, []⟩

theorem get_embeddings_sanitizes_witness :
    0 < 50 ∧
    add_documents (fun s : PyStr => s.length) 50 [c10Doc] [] =
      [] ++ [c10Doc].map (fun d =>
        ⟨d.id, (fun s : PyStr => s.length)
          (if pyStrip d.text = [] then [' '] else pyStrip d.text),
          d.text, d.metadata⟩) :=
  ⟨by decide, get_embeddings_sanitizes.2.2 Nat (fun s => s.length) 50 [c10Doc]
    [] (by decide)⟩

end RepoExplorer
